import Mathlib

/-!
Verification of the bnuystore distributed file store against its
natural-language specification.

The development shallowly embeds the relevant Rust sources:

* `src/front_node/sftp.rs` — SFTP path normalization and handle encoding
* `src/message.rs` — the length-framed wire codec (encode and decode)
* `src/front_node/storage_node_connection.rs` — the multiplexed link
  (message-id allocation, pending table, receive task) as a labelled
  transition system
* `src/storage_node/mod.rs` — the per-UUID file-lock engine as a labelled
  transition system
* `src/storage_node_main.rs` — the storage-node server dispatch loop
* `src/front_node/mod.rs` — the upload_file operation

Rust strings are modelled as `List Char` (lists of Unicode scalar values),
byte buffers as `List Nat` with values below 256, `u32`/`u64`/`u128`
machine integers as `Nat` with explicit `% 2 ^ w` where wrap-around occurs,
and `i64` as `Int` with explicit range conditions.
-/

namespace Bnuystore

/-! ## SFTP path normalization (src/front_node/sftp.rs, normalize_path) -/

/-- The subset of russh_sftp protocol status codes used by the adapter. -/
inductive StatusCode where
  | ok
  | eof
  | noSuchFile
  | failure
  | badMessage
  deriving DecidableEq, Repr

instance exceptDecEq {ε α : Type} [DecidableEq ε] [DecidableEq α] :
    DecidableEq (Except ε α) := fun x y =>
  match x, y with
  | .ok a, .ok b =>
    if h : a = b then .isTrue (by rw [h])
    else .isFalse (fun hc => h (by injection hc))
  | .error a, .error b =>
    if h : a = b then .isTrue (by rw [h])
    else .isFalse (fun hc => h (by injection hc))
  | .ok _, .error _ => .isFalse (fun hc => by injection hc)
  | .error _, .ok _ => .isFalse (fun hc => by injection hc)

/-- Rust `str::split(sep)`: splitting the empty string yields one empty
segment, and every separator starts a new segment. -/
def splitOnChar (sep : Char) : List Char → List (List Char)
  | [] => [[]]
  | c :: rest =>
    match splitOnChar sep rest with
    | [] => []
    | s :: ss => if c = sep then [] :: s :: ss else (c :: s) :: ss

/-- Joining segments with a slash separator: the canon-building loop at the
end of `normalize_path` (first part bare, later parts preceded by a slash). -/
def joinSlash : List (List Char) → List Char
  | [] => []
  | [s] => s
  | s :: ss => s ++ '/' :: joinSlash ss

/-- The segment-processing loop of `normalize_path`: a `..` part pops one
pushed segment (popping an empty stack is a BadMessage, modelled as `none`),
a `.` part is dropped, and any other part (including an empty one) is
pushed.  The Rust code pushes and pops at the end of a Vec; here `acc`
holds the pushed segments in reverse order, so push and pop work at the
head, and the final answer is reversed back. -/
def normalizeParts (acc : List (List Char)) : List (List Char) → Option (List (List Char))
  | [] => some acc.reverse
  | part :: rest =>
    if part = ['.', '.'] then
      match acc with
      | [] => none
      | _ :: accTail => normalizeParts accTail rest
    else if part = ['.'] then normalizeParts acc rest
    else normalizeParts (part :: acc) rest

/-- Removal of a single trailing slash (`path.ends_with("/")` followed by
slicing off the last byte). -/
def stripTrailingSlash (p : List Char) : List Char :=
  if p.getLast? = some '/' then p.dropLast else p

/-- `SFTPConnection::normalize_path` from src/front_node/sftp.rs: strip one
trailing slash, split on `/`, process `..` and `.` segments, rejoin. -/
def normalize_path (p : List Char) : Except StatusCode (List Char) :=
  match normalizeParts [] (splitOnChar '/' (stripTrailingSlash p)) with
  | none => Except.error StatusCode.badMessage
  | some parts => Except.ok (joinSlash parts)

/-! Auxiliary lemmas about split and join. -/

theorem splitOnChar_ne_nil (sep : Char) (p : List Char) : splitOnChar sep p ≠ [] := by
  induction p with
  | nil => simp [splitOnChar]
  | cons c rest ih =>
    simp only [splitOnChar]
    rcases h : splitOnChar sep rest with _ | ⟨s, ss⟩
    · exact absurd h ih
    · by_cases hc : c = sep <;> simp [hc]

theorem sep_not_mem_of_mem_splitOnChar' (sep : Char) (p : List Char) :
    ∀ s ∈ splitOnChar sep p, sep ∉ s := by
  induction p with
  | nil =>
    intro s hs
    simp only [splitOnChar, List.mem_singleton] at hs
    subst hs; simp
  | cons c rest ih =>
    intro s hs
    simp only [splitOnChar] at hs
    rcases h : splitOnChar sep rest with _ | ⟨t, ts⟩
    · exact absurd h (splitOnChar_ne_nil sep rest)
    · rw [h] at hs
      by_cases hc : c = sep
      · simp only [if_pos hc] at hs
        rcases List.mem_cons.mp hs with hs | hs
        · subst hs; simp
        · exact ih s (h ▸ hs)
      · simp only [if_neg hc] at hs
        rcases List.mem_cons.mp hs with hs | hs
        · subst hs
          intro hmem
          rcases List.mem_cons.mp hmem with h1 | h1
          · exact hc h1.symm
          · exact ih t (h ▸ List.mem_cons_self t ts) h1
        · exact ih s (h ▸ List.mem_cons_of_mem t hs)

theorem sep_not_mem_of_mem_splitOnChar {sep : Char} {p : List Char} {s : List Char}
    (hs : s ∈ splitOnChar sep p) : sep ∉ s :=
  sep_not_mem_of_mem_splitOnChar' sep p s hs

theorem splitOnChar_no_sep {sep : Char} {s : List Char} (h : sep ∉ s) :
    splitOnChar sep s = [s] := by
  induction s with
  | nil => simp [splitOnChar]
  | cons c rest ih =>
    have hc : c ≠ sep := fun hcs => h (hcs ▸ List.mem_cons_self c rest)
    have hrest : sep ∉ rest := fun hm => h (List.mem_cons_of_mem c hm)
    simp only [splitOnChar, ih hrest]
    simp [fun hcs => hc hcs]

theorem splitOnChar_append_sep {sep : Char} {s t : List Char} (h : sep ∉ s) :
    splitOnChar sep (s ++ sep :: t) = s :: splitOnChar sep t := by
  induction s with
  | nil =>
    simp only [List.nil_append, splitOnChar]
    rcases ht : splitOnChar sep t with _ | ⟨u, us⟩
    · exact absurd ht (splitOnChar_ne_nil sep t)
    · simp
  | cons c rest ih =>
    have hc : c ≠ sep := fun hcs => h (hcs ▸ List.mem_cons_self c rest)
    have hrest : sep ∉ rest := fun hm => h (List.mem_cons_of_mem c hm)
    have hstep : splitOnChar sep ((c :: rest) ++ sep :: t)
        = match splitOnChar sep (rest ++ sep :: t) with
          | [] => []
          | s :: ss => if c = sep then [] :: s :: ss else (c :: s) :: ss := rfl
    rw [hstep, ih hrest]
    simp [fun hcs => hc hcs]

theorem splitOnChar_joinSlash {l : List (List Char)} (hne : l ≠ [])
    (hsl : ∀ s ∈ l, '/' ∉ s) : splitOnChar '/' (joinSlash l) = l := by
  induction l with
  | nil => exact absurd rfl hne
  | cons s ss ih =>
    rcases ss with _ | ⟨s2, ss2⟩
    · exact splitOnChar_no_sep (hsl s (List.mem_cons_self s []))
    · have hs : '/' ∉ s := hsl s (List.mem_cons_self s _)
      have : joinSlash (s :: s2 :: ss2) = s ++ '/' :: joinSlash (s2 :: ss2) := rfl
      rw [this, splitOnChar_append_sep hs,
        ih (by simp) (fun u hu => hsl u (List.mem_cons_of_mem s hu))]

theorem joinSlash_append_last {l : List (List Char)} (hne : l ≠ []) (last : List Char) :
    joinSlash (l ++ [last]) = joinSlash l ++ '/' :: last := by
  induction l with
  | nil => exact absurd rfl hne
  | cons s ss ih =>
    rcases ss with _ | ⟨s2, ss2⟩
    · rfl
    · have h1 : joinSlash ((s :: s2 :: ss2) ++ [last])
          = s ++ '/' :: joinSlash ((s2 :: ss2) ++ [last]) := rfl
      have h2 : joinSlash (s :: s2 :: ss2) = s ++ '/' :: joinSlash (s2 :: ss2) := rfl
      rw [h1, h2, ih (by simp)]
      simp

theorem mem_of_getLast?_eq {α : Type} {l : List α} {a : α}
    (h : l.getLast? = some a) : a ∈ l := by
  obtain ⟨hne, heq⟩ := List.mem_getLast?_eq_getLast (Option.mem_def.mpr h)
  exact heq ▸ List.getLast_mem hne

/-- Every segment surviving `normalizeParts` satisfies any property `P`
that holds of the initial stack and of every pushed (non-dot) input part. -/
theorem normalizeParts_forall {P : List Char → Prop} :
    ∀ (parts acc out : List (List Char)),
    (∀ s ∈ parts, s ≠ ['.', '.'] → s ≠ ['.'] → P s) →
    (∀ s ∈ acc, P s) →
    normalizeParts acc parts = some out → ∀ s ∈ out, P s := by
  intro parts
  induction parts with
  | nil =>
    intro acc out _ hacc heq s hs
    simp only [normalizeParts, Option.some.injEq] at heq
    exact hacc s (by rw [← heq] at hs; exact List.mem_reverse.mp hs)
  | cons part rest ih =>
    intro acc out hparts hacc heq s hs
    have hrest : ∀ s ∈ rest, s ≠ ['.', '.'] → s ≠ ['.'] → P s :=
      fun u hu => hparts u (List.mem_cons_of_mem part hu)
    simp only [normalizeParts] at heq
    by_cases h1 : part = ['.', '.']
    · rw [if_pos h1] at heq
      rcases acc with _ | ⟨a, accTail⟩
      · exact absurd heq (by simp)
      · exact ih accTail out hrest
          (fun u hu => hacc u (List.mem_cons_of_mem a hu)) heq s hs
    · rw [if_neg h1] at heq
      by_cases h2 : part = ['.']
      · rw [if_pos h2] at heq
        exact ih acc out hrest hacc heq s hs
      · rw [if_neg h2] at heq
        refine ih (part :: acc) out hrest ?_ heq s hs
        intro u hu
        rcases List.mem_cons.mp hu with h | h
        · exact h ▸ hparts part (List.mem_cons_self part rest) h1 h2
        · exact hacc u h

/-- On a list of segments containing no `..` and no `.`, the processing
loop is the identity (prefixed by the reversed accumulator). -/
theorem normalizeParts_no_dots :
    ∀ (parts acc : List (List Char)),
    (∀ s ∈ parts, s ≠ ['.', '.'] ∧ s ≠ ['.']) →
    normalizeParts acc parts = some (acc.reverse ++ parts) := by
  intro parts
  induction parts with
  | nil => intro acc _; simp [normalizeParts]
  | cons part rest ih =>
    intro acc hparts
    have hp := hparts part (List.mem_cons_self part rest)
    simp only [normalizeParts, if_neg hp.1, if_neg hp.2]
    rw [ih (part :: acc) (fun u hu => hparts u (List.mem_cons_of_mem part hu))]
    simp

theorem stripTrailingSlash_of_no_trailing {r : List Char}
    (h : r.getLast? ≠ some '/') : stripTrailingSlash r = r := by
  simp [stripTrailingSlash, h]

/-- Claim C8, counterexample: `normalize_path` is not idempotent.  On the
input `"//"` it succeeds with `"/"`, but renormalizing `"/"` yields `""`. -/
theorem c8_counterexample :
    normalize_path "//".data = Except.ok "/".data ∧
    normalize_path "/".data = Except.ok "".data ∧
    "/".data ≠ "".data := by decide

/-- Claim C8 (amended): for every path p on which normalize_path succeeds,
applying normalize_path to the result succeeds again, and — provided the
result does not end with a slash — returns the result unchanged.  (When the
result ends with a slash, e.g. for p = "//", the second application strips
that slash, which is the counterexample to idempotence as stated.) -/
theorem c8_normalize_idempotent_unless_trailing_slash
    (p r : List Char) (h : normalize_path p = Except.ok r) :
    (∃ r2, normalize_path r = Except.ok r2) ∧
    (r.getLast? ≠ some '/' → normalize_path r = Except.ok r) := by
  rcases hout : normalizeParts [] (splitOnChar '/' (stripTrailingSlash p))
    with _ | ⟨out⟩
  · rw [normalize_path, hout] at h; exact absurd h (by simp)
  · rw [normalize_path, hout] at h
    have hr : r = joinSlash out := by
      have := h; simp only [Except.ok.injEq] at this; exact this.symm
    have hQ : ∀ s ∈ out, '/' ∉ s ∧ s ≠ ['.', '.'] ∧ s ≠ ['.'] := by
      refine normalizeParts_forall _ _ _ ?_ (by simp) hout
      intro s hs h1 h2
      exact ⟨sep_not_mem_of_mem_splitOnChar hs, h1, h2⟩
    by_cases houtnil : out = []
    · subst houtnil
      have : r = [] := by rw [hr]; rfl
      subst this
      constructor
      · exact ⟨[], by decide⟩
      · intro _; decide
    · have houtne : out ≠ [] := houtnil
      by_cases hsl : r.getLast? = some '/'
      · -- the result ends with a slash: its last segment must be empty
        constructor
        · rcases List.eq_nil_or_concat out with hnil | ⟨l2, b, hconcat⟩
          · exact absurd hnil houtne
          · rw [List.concat_eq_append] at hconcat
            by_cases hl2nil : l2 = []
            · -- out = [b]; r = b is slash-free, contradiction with hsl
              exfalso
              subst hl2nil
              have hb : r = b := by rw [hr, hconcat]; rfl
              have hbmem : b ∈ out := by rw [hconcat]; simp
              have : '/' ∈ b := mem_of_getLast?_eq (hb ▸ hsl)
              exact absurd this (hQ b hbmem).1
            · have hl2n : l2 ≠ [] := hl2nil
              have hrj : r = joinSlash l2 ++ '/' :: b := by
                rw [hr, hconcat, joinSlash_append_last hl2n]
              have hbnil : b = [] := by
                rcases hb : b with _ | ⟨c, cs⟩
                · rfl
                · exfalso
                  have hlast : r.getLast? = (c :: cs).getLast? := by
                    rw [hrj, hb, List.getLast?_append_cons]
                    rw [List.getLast?_cons_cons]
                  have : '/' ∈ c :: cs := mem_of_getLast?_eq (hlast ▸ hsl)
                  have hbmem : b ∈ out := by rw [hconcat]; simp
                  exact absurd (hb ▸ this) (hQ b hbmem).1
              subst hbnil
              -- normalize_path r strips the slash and renormalizes joinSlash l2
              have hstrip : stripTrailingSlash r = joinSlash l2 := by
                rw [stripTrailingSlash, if_pos hsl, hrj]
                have : joinSlash l2 ++ '/' :: ([] : List Char)
                    = joinSlash l2 ++ ['/'] := rfl
                rw [this, List.dropLast_concat]
              have hQ2 : ∀ s ∈ l2, '/' ∉ s ∧ s ≠ ['.', '.'] ∧ s ≠ ['.'] := by
                intro s hs
                exact hQ s (by rw [hconcat]; exact List.mem_append_left _ hs)
              have hsplit : splitOnChar '/' (joinSlash l2) = l2 :=
                splitOnChar_joinSlash hl2n (fun s hs => (hQ2 s hs).1)
              refine ⟨joinSlash l2, ?_⟩
              rw [normalize_path, hstrip, hsplit,
                normalizeParts_no_dots l2 [] (fun s hs => (hQ2 s hs).2)]
              simp
        · intro hcontra; exact absurd hsl hcontra
      · -- the result does not end with a slash: full idempotence
        have hstrip : stripTrailingSlash r = r := stripTrailingSlash_of_no_trailing hsl
        have hsplit : splitOnChar '/' r = out := by
          rw [hr]; exact splitOnChar_joinSlash houtne (fun s hs => (hQ s hs).1)
        have hnorm : normalize_path r = Except.ok r := by
          rw [normalize_path, hstrip, hsplit,
            normalizeParts_no_dots out [] (fun s hs => (hQ s hs).2)]
          simp [hr]
        exact ⟨⟨r, hnorm⟩, fun _ => hnorm⟩

/-- Claim C8 amended, witness: concrete instantiation at p = "a/b/". -/
theorem c8_witness :
    normalize_path "a/b/".data = Except.ok "a/b".data ∧
    (∃ r2, normalize_path "a/b".data = Except.ok r2) ∧
    ("a/b".data.getLast? ≠ some '/' → normalize_path "a/b".data = Except.ok "a/b".data) := by
  refine ⟨by decide, ?_⟩
  exact c8_normalize_idempotent_unless_trailing_slash "a/b/".data "a/b".data (by decide)

/-- Claim C9: the code does NOT reject "/../x".  Splitting "/../x" on the
slash yields a leading empty segment which is pushed onto the stack, so the
following ".." pops it instead of failing: normalize_path returns the
relative path "x" rather than BadMessage.  (The relative result is then
resolved against the home directory by absolutize_path, not the root.)
The claim is right about "/a/../b", which normalizes to "/b". -/
theorem c9_root_escape_not_rejected :
    normalize_path "/../x".data = Except.ok "x".data ∧
    normalize_path "/a/../b".data = Except.ok "/b".data ∧
    normalize_path "../x".data = Except.error StatusCode.badMessage := by decide

/-! ## Digit codecs shared by the UUID and handle encodings -/

/-- Lower-case hexadecimal digit characters, the lookup table used by the
uuid crate when encoding (`encode_lower`). -/
def hexDigitLower : Nat → Char
  | 0 => '0' | 1 => '1' | 2 => '2' | 3 => '3' | 4 => '4'
  | 5 => '5' | 6 => '6' | 7 => '7' | 8 => '8' | 9 => '9'
  | 10 => 'a' | 11 => 'b' | 12 => 'c' | 13 => 'd' | 14 => 'e' | _ => 'f'

/-- Fixed-width big-endian lower-case hexadecimal rendering of `n`. -/
def hexFixed : Nat → Nat → List Char
  | 0, _ => []
  | w + 1, n => hexFixed w (n / 16) ++ [hexDigitLower (n % 16)]

/-- Value of one hexadecimal digit character (either case), as accepted by
`Uuid::try_parse`. -/
def hexDigitVal (c : Char) : Option Nat :=
  if '0' ≤ c ∧ c ≤ '9' then some (c.toNat - 48)
  else if 'a' ≤ c ∧ c ≤ 'f' then some (c.toNat - 87)
  else if 'A' ≤ c ∧ c ≤ 'F' then some (c.toNat - 55)
  else none

def hexFoldStep (acc : Option Nat) (c : Char) : Option Nat :=
  acc.bind fun a => (hexDigitVal c).map fun v => a * 16 + v

/-- Big-endian hexadecimal string to number; `none` if any character is not
a hexadecimal digit. -/
def parseHexDigits (s : List Char) : Option Nat :=
  s.foldl hexFoldStep (some 0)

/-- Value of one decimal digit character, as accepted by `str::parse::<i64>`. -/
def decDigitVal (c : Char) : Option Nat :=
  if '0' ≤ c ∧ c ≤ '9' then some (c.toNat - 48) else none

def decFoldStep (acc : Option Nat) (c : Char) : Option Nat :=
  acc.bind fun a => (decDigitVal c).map fun v => a * 10 + v

def parseDecDigits (s : List Char) : Option Nat :=
  s.foldl decFoldStep (some 0)

/-- Decimal rendering of a natural number (the digit loop of Rust integer
formatting). -/
def natDecimal (n : Nat) : List Char :=
  if _h : n < 10 then [hexDigitLower n]
  else natDecimal (n / 10) ++ [hexDigitLower (n % 10)]
termination_by n
decreasing_by exact Nat.div_lt_self (by omega) (by omega)

/-- Rust `i64` Display semantics: a minus sign followed by the decimal
magnitude for negative numbers, plain decimal otherwise. -/
def intDecimal (n : Int) : List Char :=
  if n < 0 then '-' :: natDecimal (-n).toNat else natDecimal n.toNat

/-- Rust `str::parse::<i64>`: optional sign, at least one digit, all
characters digits, magnitude within the i64 range. -/
def parse_i64 (s : List Char) : Option Int :=
  match s with
  | [] => none
  | c :: ds =>
    if c = '+' then
      if ds = [] then none else
      (parseDecDigits ds).bind fun v =>
        if v ≤ 2 ^ 63 - 1 then some (v : Int) else none
    else if c = '-' then
      if ds = [] then none else
      (parseDecDigits ds).bind fun v =>
        if v ≤ 2 ^ 63 then some (-(v : Int)) else none
    else
      (parseDecDigits (c :: ds)).bind fun v =>
        if v ≤ 2 ^ 63 - 1 then some (v : Int) else none

theorem hexFixed_length (w n : Nat) : (hexFixed w n).length = w := by
  induction w generalizing n with
  | zero => rfl
  | succ w ih => simp [hexFixed, ih]

theorem hexDigitVal_hexDigitLower : ∀ d, d < 16 → hexDigitVal (hexDigitLower d) = some d := by
  decide

theorem decDigitVal_hexDigitLower : ∀ d, d < 10 → decDigitVal (hexDigitLower d) = some d := by
  decide

theorem hexFold_hexFixed (w : Nat) :
    ∀ n a, n < 16 ^ w → List.foldl hexFoldStep (some a) (hexFixed w n) = some (a * 16 ^ w + n) := by
  induction w with
  | zero =>
    intro n a hn
    have : n = 0 := by omega
    subst this
    simp [hexFixed]
  | succ w ih =>
    intro n a hn
    have hdiv : n / 16 < 16 ^ w := by
      rw [Nat.div_lt_iff_lt_mul (by omega)]
      calc n < 16 ^ (w + 1) := hn
        _ = 16 ^ w * 16 := by rw [Nat.pow_succ]
    rw [hexFixed, List.foldl_append, ih (n / 16) a hdiv]
    have hmod : n % 16 < 16 := Nat.mod_lt n (by omega)
    simp only [List.foldl_cons, List.foldl_nil, hexFoldStep, Option.bind,
      hexDigitVal_hexDigitLower (n % 16) hmod, Option.map]
    have : (a * 16 ^ w + n / 16) * 16 + n % 16 = a * 16 ^ (w + 1) + n := by
      rw [Nat.pow_succ, ← Nat.mul_assoc]
      omega
    rw [this]

theorem parseHexDigits_hexFixed {w n : Nat} (hn : n < 16 ^ w) :
    parseHexDigits (hexFixed w n) = some n := by
  have := hexFold_hexFixed w n 0 hn
  simpa [parseHexDigits] using this

theorem natDecimal_digits (n : Nat) : ∀ c ∈ natDecimal n, ∃ d, d < 10 ∧ c = hexDigitLower d := by
  induction n using Nat.strong_induction_on with
  | _ n ih =>
    intro c hc
    rw [natDecimal] at hc
    by_cases h : n < 10
    · rw [dif_pos h] at hc
      simp only [List.mem_singleton] at hc
      exact ⟨n, h, hc⟩
    · rw [dif_neg h] at hc
      rcases List.mem_append.mp hc with hc | hc
      · exact ih (n / 10) (Nat.div_lt_self (by omega) (by omega)) c hc
      · simp only [List.mem_singleton] at hc
        exact ⟨n % 10, Nat.mod_lt n (by omega), hc⟩

theorem natDecimal_ne_nil (n : Nat) : natDecimal n ≠ [] := by
  rw [natDecimal]
  by_cases h : n < 10
  · rw [dif_pos h]; simp
  · rw [dif_neg h]; simp

theorem parseDecDigits_natDecimal (n : Nat) : parseDecDigits (natDecimal n) = some n := by
  induction n using Nat.strong_induction_on with
  | _ n ih =>
    rw [parseDecDigits, natDecimal]
    by_cases h : n < 10
    · rw [dif_pos h]
      simp [decFoldStep, decDigitVal_hexDigitLower n h]
    · rw [dif_neg h]
      rw [List.foldl_append]
      have hprev := ih (n / 10) (Nat.div_lt_self (by omega) (by omega))
      rw [parseDecDigits] at hprev
      rw [hprev]
      have hmod : n % 10 < 10 := Nat.mod_lt n (by omega)
      simp only [List.foldl_cons, List.foldl_nil, decFoldStep, Option.bind,
        decDigitVal_hexDigitLower (n % 10) hmod, Option.map]
      congr 1
      omega

/-! ## UUID stringify and parse (src/message.rs and the uuid crate) -/

/-- `stringify_uuid` / `Uuid::hyphenated().encode_lower`: the 128-bit value
rendered as 32 lower-case hexadecimal digits in groups of 8-4-4-4-12
separated by hyphens. -/
def stringify_uuid (u : Nat) : List Char :=
  hexFixed 8 (u / 2 ^ 96) ++
    ('-' :: (hexFixed 4 (u / 2 ^ 80 % 2 ^ 16) ++
      ('-' :: (hexFixed 4 (u / 2 ^ 64 % 2 ^ 16) ++
        ('-' :: (hexFixed 4 (u / 2 ^ 48 % 2 ^ 16) ++
          ('-' :: hexFixed 12 (u % 2 ^ 48))))))))

/-- The hyphenated branch of `Uuid::try_parse`: groups of 8-4-4-4-12
hexadecimal digits (either case) separated by hyphens. -/
def tryParseHyphenated (s : List Char) : Option Nat :=
  let a := s.take 8
  match s.drop 8 with
  | '-' :: s2 =>
    let b := s2.take 4
    match s2.drop 4 with
    | '-' :: s4 =>
      let c := s4.take 4
      match s4.drop 4 with
      | '-' :: s6 =>
        let d := s6.take 4
        match s6.drop 4 with
        | '-' :: s8 =>
          if a.length = 8 ∧ b.length = 4 ∧ c.length = 4 ∧ d.length = 4 ∧ s8.length = 12 then
            match parseHexDigits a, parseHexDigits b, parseHexDigits c,
                parseHexDigits d, parseHexDigits s8 with
            | some va, some vb, some vc, some vd, some ve =>
              some ((((va * 2 ^ 16 + vb) * 2 ^ 16 + vc) * 2 ^ 16 + vd) * 2 ^ 48 + ve)
            | _, _, _, _, _ => none
          else none
        | _ => none
      | _ => none
    | _ => none
  | _ => none

/-- `Uuid::try_parse` restricted to the simple (32 hexadecimal digits) and
hyphenated forms.  The crate additionally accepts braced and urn-prefixed
forms; no encoder in this codebase produces those, and no claim depends on
them, so they are omitted here. -/
def uuid_try_parse (s : List Char) : Option Nat :=
  if s.length = 32 then parseHexDigits s else tryParseHyphenated s

theorem uuid_roundtrip {u : Nat} (hu : u < 2 ^ 128) :
    uuid_try_parse (stringify_uuid u) = some u := by
  have hlen : (stringify_uuid u).length = 36 := by
    simp [stringify_uuid, hexFixed_length]
  have ha : u / 2 ^ 96 < 16 ^ 8 := by omega
  have hb : u / 2 ^ 80 % 2 ^ 16 < 16 ^ 4 := by omega
  have hc : u / 2 ^ 64 % 2 ^ 16 < 16 ^ 4 := by omega
  have hd : u / 2 ^ 48 % 2 ^ 16 < 16 ^ 4 := by omega
  have he : u % 2 ^ 48 < 16 ^ 12 := by omega
  rw [uuid_try_parse, if_neg (by omega)]
  rw [tryParseHyphenated]
  rw [stringify_uuid]
  rw [List.take_left' (hexFixed_length 8 _), List.drop_left' (hexFixed_length 8 _)]
  simp only
  rw [List.take_left' (hexFixed_length 4 _), List.drop_left' (hexFixed_length 4 _)]
  simp only
  rw [List.take_left' (hexFixed_length 4 _), List.drop_left' (hexFixed_length 4 _)]
  simp only
  rw [List.take_left' (hexFixed_length 4 _), List.drop_left' (hexFixed_length 4 _)]
  simp only
  rw [if_pos ⟨hexFixed_length 8 _, hexFixed_length 4 _, hexFixed_length 4 _,
    hexFixed_length 4 _, hexFixed_length 12 _⟩]
  rw [parseHexDigits_hexFixed ha, parseHexDigits_hexFixed hb, parseHexDigits_hexFixed hc,
    parseHexDigits_hexFixed hd, parseHexDigits_hexFixed he]
  simp only [Option.some.injEq]
  omega

/-! ## SFTP handles (src/front_node/sftp.rs, Handle) -/

/-- Directory identifiers are 64-bit signed database row ids. -/
def DirectoryID := Int

/-- SFTP handle: an open file (by UUID) or an open directory (by id). -/
inductive Handle where
  | file (uuid : Nat)
  | directory (id : Int)
  deriving DecidableEq

/-- `impl ToString for Handle`: `f:` followed by the lower-case hyphenated
UUID, or `d:` followed by the decimal directory id. -/
def handle_to_string : Handle → List Char
  | .file u => 'f' :: ':' :: stringify_uuid u
  | .directory d => 'd' :: ':' :: intDecimal d

/-- `impl FromStr for Handle`: split off the first two characters
(`split_at_checked(2)` — fewer than two characters is a BadMessage), then
dispatch on `f:` or `d:`. -/
def handle_from_str (s : List Char) : Except StatusCode Handle :=
  match s with
  | c1 :: c2 :: suffix =>
    if c1 = 'f' ∧ c2 = ':' then
      match uuid_try_parse suffix with
      | some u => Except.ok (Handle.file u)
      | none => Except.error StatusCode.badMessage
    else if c1 = 'd' ∧ c2 = ':' then
      match parse_i64 suffix with
      | some d => Except.ok (Handle.directory d)
      | none => Except.error StatusCode.badMessage
    else Except.error StatusCode.badMessage
  | _ => Except.error StatusCode.badMessage

theorem hexDigitLower_ne_sign :
    ∀ k, k < 10 → hexDigitLower k ≠ '+' ∧ hexDigitLower k ≠ '-' := by decide

theorem parse_i64_intDecimal {d : Int} (h1 : -(2 ^ 63) ≤ d) (h2 : d < 2 ^ 63) :
    parse_i64 (intDecimal d) = some d := by
  by_cases hneg : d < 0
  · rw [intDecimal, if_pos hneg]
    have hne := natDecimal_ne_nil (-d).toNat
    rw [parse_i64]
    simp only [if_neg (by decide : ¬('-' = '+')), if_pos rfl, if_neg hne]
    rw [parseDecDigits_natDecimal]
    have hbound : (-d).toNat ≤ 2 ^ 63 := by omega
    simp only [Option.bind, if_pos hbound, Option.some.injEq]
    rw [Int.toNat_of_nonneg (by omega : (0 : Int) ≤ -d)]
    simp
  · rw [intDecimal, if_neg hneg]
    rcases hnd : natDecimal d.toNat with _ | ⟨c, ds⟩
    · exact absurd hnd (natDecimal_ne_nil d.toNat)
    · have hcdig : ∃ k, k < 10 ∧ c = hexDigitLower k := by
        apply natDecimal_digits d.toNat
        rw [hnd]; exact List.mem_cons_self c ds
      obtain ⟨k, hk, hck⟩ := hcdig
      have hcp : c ≠ '+' := hck ▸ (hexDigitLower_ne_sign k hk).1
      have hcm : c ≠ '-' := hck ▸ (hexDigitLower_ne_sign k hk).2
      rw [parse_i64]
      simp only [if_neg hcp, if_neg hcm]
      rw [← hnd, parseDecDigits_natDecimal]
      have hbound : d.toNat ≤ 2 ^ 63 - 1 := by omega
      simp only [Option.bind, if_pos hbound, Option.some.injEq]
      exact Int.toNat_of_nonneg (by omega)

/-- Claim C10: SFTP handle encoding round-trips.  For every file handle
(any 128-bit UUID) and every directory handle (any i64 id, negatives
included), parsing the string produced by to_string returns the identical
handle. -/
theorem c10_handle_roundtrip (u : Nat) (hu : u < 2 ^ 128)
    (d : Int) (hd1 : -(2 ^ 63) ≤ d) (hd2 : d < 2 ^ 63) :
    handle_from_str (handle_to_string (Handle.file u)) = Except.ok (Handle.file u) ∧
    handle_from_str (handle_to_string (Handle.directory d))
      = Except.ok (Handle.directory d) := by
  constructor
  · simp [handle_to_string, handle_from_str, uuid_roundtrip hu]
  · simp [handle_to_string, handle_from_str, parse_i64_intDecimal hd1 hd2]

/-- Claim C10, witness: concrete instantiation at a fixed UUID and the
negative directory id -5. -/
theorem c10_witness :
    handle_from_str (handle_to_string (Handle.file 0x123e4567e89b12d3a456426614174000))
      = Except.ok (Handle.file 0x123e4567e89b12d3a456426614174000) ∧
    handle_from_str (handle_to_string (Handle.directory (-5)))
      = Except.ok (Handle.directory (-5)) :=
  c10_handle_roundtrip 0x123e4567e89b12d3a456426614174000 (by norm_num)
    (-5) (by norm_num) (by norm_num)

/-! ## Byte-level framing primitives (tokio read_u32 / read_u64 / read_exact) -/

/-- Errors of `parse_message` (src/message.rs, ParseMessageError).  The
io / json / uuid payloads carry no information the claims depend on. -/
inductive ParseMessageError where
  | ioErr
  | parseJsonErr
  | parseUuidErr
  | requestTooLarge (n : Nat)
  deriving DecidableEq, Repr

/-- Big-endian bytes of a `u32`; writing a wider value wraps, as the Rust
`as u32` cast does. -/
def be32 (n : Nat) : List Nat :=
  [n / 2 ^ 24 % 256, n / 2 ^ 16 % 256, n / 2 ^ 8 % 256, n % 256]

/-- Big-endian bytes of a `u64`; writing a wider value wraps. -/
def be64 (n : Nat) : List Nat :=
  [n / 2 ^ 56 % 256, n / 2 ^ 48 % 256, n / 2 ^ 40 % 256, n / 2 ^ 32 % 256,
   n / 2 ^ 24 % 256, n / 2 ^ 16 % 256, n / 2 ^ 8 % 256, n % 256]

/-- `read_u32`: four big-endian bytes; hitting end of stream is an IO
error (UnexpectedEof). -/
def readU32 : List Nat → Except ParseMessageError (Nat × List Nat)
  | b0 :: b1 :: b2 :: b3 :: rest =>
    Except.ok (b0 * 2 ^ 24 + b1 * 2 ^ 16 + b2 * 2 ^ 8 + b3, rest)
  | _ => Except.error ParseMessageError.ioErr

/-- `read_u64`: eight big-endian bytes. -/
def readU64 : List Nat → Except ParseMessageError (Nat × List Nat)
  | b0 :: b1 :: b2 :: b3 :: b4 :: b5 :: b6 :: b7 :: rest =>
    Except.ok (b0 * 2 ^ 56 + b1 * 2 ^ 48 + b2 * 2 ^ 40 + b3 * 2 ^ 32
      + b4 * 2 ^ 24 + b5 * 2 ^ 16 + b6 * 2 ^ 8 + b7, rest)
  | _ => Except.error ParseMessageError.ioErr

/-- `read_exact` into a buffer of length n: consumes exactly n bytes or
fails with an IO error. -/
def readBytes (n : Nat) (s : List Nat) : Except ParseMessageError (List Nat × List Nat) :=
  if s.length < n then Except.error ParseMessageError.ioErr
  else Except.ok (s.take n, s.drop n)

theorem readU32_be32 (n : Nat) (rest : List Nat) :
    readU32 (be32 n ++ rest) = Except.ok (n % 2 ^ 32, rest) := by
  simp only [be32, List.cons_append, List.nil_append, readU32, Except.ok.injEq, Prod.mk.injEq]
  exact ⟨by omega, trivial⟩

theorem readU64_be64 (n : Nat) (rest : List Nat) :
    readU64 (be64 n ++ rest) = Except.ok (n % 2 ^ 64, rest) := by
  simp only [be64, List.cons_append, List.nil_append, readU64, Except.ok.injEq, Prod.mk.injEq]
  exact ⟨by omega, trivial⟩

theorem readBytes_append {n : Nat} {a : List Nat} (b : List Nat) (ha : a.length = n) :
    readBytes n (a ++ b) = Except.ok (a, b) := by
  rw [readBytes, if_neg (by simp [ha])]
  rw [List.take_left' ha, List.drop_left' ha]

/-! ## UTF-8 (the byte representation of Rust String values on the wire) -/

/-- UTF-8 encoding of one Unicode scalar value (1 to 4 bytes). -/
def utf8EncodeChar (c : Char) : List Nat :=
  if c.toNat < 0x80 then [c.toNat]
  else if c.toNat < 0x800 then [0xC0 + c.toNat / 64, 0x80 + c.toNat % 64]
  else if c.toNat < 0x10000 then
    [0xE0 + c.toNat / 4096, 0x80 + c.toNat / 64 % 64, 0x80 + c.toNat % 64]
  else
    [0xF0 + c.toNat / 262144, 0x80 + c.toNat / 4096 % 64,
     0x80 + c.toNat / 64 % 64, 0x80 + c.toNat % 64]

/-- UTF-8 encoding of a string. -/
def utf8Encode (s : List Char) : List Nat := s.flatMap utf8EncodeChar

/-- Decoding of one UTF-8 scalar from the front of a byte list, with the
validity checks Rust performs when interpreting received bytes as a str
(continuation bytes, no overlong forms, no surrogates, nothing above
U+10FFFF). -/
def utf8DecodeStep : List Nat → Option (Char × List Nat)
  | [] => none
  | b0 :: rest =>
    if b0 < 0x80 then some (Char.ofNat b0, rest)
    else if 0xC2 ≤ b0 ∧ b0 < 0xE0 then
      match rest with
      | b1 :: rest2 =>
        if 0x80 ≤ b1 ∧ b1 < 0xC0 then
          some (Char.ofNat ((b0 - 0xC0) * 64 + (b1 - 0x80)), rest2)
        else none
      | [] => none
    else if 0xE0 ≤ b0 ∧ b0 < 0xF0 then
      match rest with
      | b1 :: b2 :: rest3 =>
        if (0x80 ≤ b1 ∧ b1 < 0xC0) ∧ (0x80 ≤ b2 ∧ b2 < 0xC0)
            ∧ (b0 = 0xE0 → 0xA0 ≤ b1) ∧ (b0 = 0xED → b1 < 0xA0) then
          some (Char.ofNat ((b0 - 0xE0) * 4096 + (b1 - 0x80) * 64 + (b2 - 0x80)), rest3)
        else none
      | _ => none
    else if 0xF0 ≤ b0 ∧ b0 < 0xF5 then
      match rest with
      | b1 :: b2 :: b3 :: rest4 =>
        if (0x80 ≤ b1 ∧ b1 < 0xC0) ∧ (0x80 ≤ b2 ∧ b2 < 0xC0) ∧ (0x80 ≤ b3 ∧ b3 < 0xC0)
            ∧ (b0 = 0xF0 → 0x90 ≤ b1) ∧ (b0 = 0xF4 → b1 < 0x90) then
          some (Char.ofNat ((b0 - 0xF0) * 262144 + (b1 - 0x80) * 4096
            + (b2 - 0x80) * 64 + (b3 - 0x80)), rest4)
        else none
      | _ => none
    else none

theorem utf8DecodeStep_length : ∀ s c rem, utf8DecodeStep s = some (c, rem) →
    rem.length < s.length := by
  intro s c rem h
  match s with
  | [] => simp [utf8DecodeStep] at h
  | b0 :: rest =>
    rw [utf8DecodeStep.eq_def] at h
    simp only [] at h
    split_ifs at h with h1 h2 h3 h4
    · injection h with h2'
      injection h2' with _ hrem
      subst hrem; simp only [List.length_cons]; omega
    · match rest with
      | [] => simp at h
      | b1 :: rest2 =>
        simp only [] at h
        split_ifs at h
        injection h with h2'
        injection h2' with _ hrem
        subst hrem; simp only [List.length_cons]; omega
    · match rest with
      | [] => simp at h
      | [b1] => simp at h
      | b1 :: b2 :: rest3 =>
        simp only [] at h
        split_ifs at h
        injection h with h2'
        injection h2' with _ hrem
        subst hrem; simp only [List.length_cons]; omega
    · match rest with
      | [] => simp at h
      | [b1] => simp at h
      | [b1, b2] => simp at h
      | b1 :: b2 :: b3 :: rest4 =>
        simp only [] at h
        split_ifs at h
        injection h with h2'
        injection h2' with _ hrem
        subst hrem; simp only [List.length_cons]; omega

/-- Strict UTF-8 decoding of a byte list; `none` on any invalid sequence
(mirrors the failure serde_json reports on non-UTF-8 input). -/
def utf8Decode (s : List Nat) : Option (List Char) :=
  match hstep : utf8DecodeStep s with
  | some (c, rem) => (utf8Decode rem).map (fun cs => c :: cs)
  | none => if s = [] then some [] else none
termination_by s.length
decreasing_by exact utf8DecodeStep_length s c rem hstep

theorem char_toNat_valid (c : Char) :
    c.toNat < 0xd800 ∨ (0xe000 ≤ c.toNat ∧ c.toNat < 0x110000) := by
  rcases c.valid with h | ⟨h1, h2⟩
  · left; exact h
  · right; exact ⟨h1, h2⟩

theorem utf8DecodeStep_encodeChar (c : Char) (rest : List Nat) :
    utf8DecodeStep (utf8EncodeChar c ++ rest) = some (c, rest) := by
  have hval := char_toNat_valid c
  have hofn : Char.ofNat c.toNat = c := Char.ofNat_toNat c
  by_cases h1 : c.toNat < 0x80
  · rw [utf8EncodeChar]
    simp only [if_pos h1, List.cons_append, List.nil_append]
    rw [utf8DecodeStep.eq_def]
    simp only []
    rw [if_pos h1, hofn]
  · by_cases h2 : c.toNat < 0x800
    · rw [utf8EncodeChar]
      simp only [if_neg h1, if_pos h2, List.cons_append, List.nil_append]
      rw [utf8DecodeStep.eq_def]
      simp only []
      rw [if_neg (by omega), if_pos (show 0xC2 ≤ 0xC0 + c.toNat / 64
        ∧ 0xC0 + c.toNat / 64 < 0xE0 by omega)]
      rw [if_pos (show 0x80 ≤ 0x80 + c.toNat % 64 ∧ 0x80 + c.toNat % 64 < 0xC0 by omega)]
      rw [show (0xC0 + c.toNat / 64 - 0xC0) * 64 + (0x80 + c.toNat % 64 - 0x80)
        = c.toNat by omega, hofn]
    · by_cases h3 : c.toNat < 0x10000
      · rw [utf8EncodeChar]
        simp only [if_neg h1, if_neg h2, if_pos h3, List.cons_append, List.nil_append]
        rw [utf8DecodeStep.eq_def]
        simp only []
        rw [if_neg (by omega), if_neg (by omega), if_pos (show 0xE0 ≤ 0xE0 + c.toNat / 4096
          ∧ 0xE0 + c.toNat / 4096 < 0xF0 by omega)]
        rw [if_pos (show (0x80 ≤ 0x80 + c.toNat / 64 % 64 ∧ 0x80 + c.toNat / 64 % 64 < 0xC0)
          ∧ (0x80 ≤ 0x80 + c.toNat % 64 ∧ 0x80 + c.toNat % 64 < 0xC0)
          ∧ (0xE0 + c.toNat / 4096 = 0xE0 → 0xA0 ≤ 0x80 + c.toNat / 64 % 64)
          ∧ (0xE0 + c.toNat / 4096 = 0xED → 0x80 + c.toNat / 64 % 64 < 0xA0) by omega)]
        rw [show (0xE0 + c.toNat / 4096 - 0xE0) * 4096 + (0x80 + c.toNat / 64 % 64 - 0x80) * 64
          + (0x80 + c.toNat % 64 - 0x80) = c.toNat by omega, hofn]
      · have h4 : c.toNat < 0x110000 := by omega
        rw [utf8EncodeChar]
        simp only [if_neg h1, if_neg h2, if_neg h3, List.cons_append, List.nil_append]
        rw [utf8DecodeStep.eq_def]
        simp only []
        rw [if_neg (by omega), if_neg (by omega), if_neg (by omega),
          if_pos (show 0xF0 ≤ 0xF0 + c.toNat / 262144
            ∧ 0xF0 + c.toNat / 262144 < 0xF5 by omega)]
        rw [if_pos (show (0x80 ≤ 0x80 + c.toNat / 4096 % 64 ∧ 0x80 + c.toNat / 4096 % 64 < 0xC0)
          ∧ (0x80 ≤ 0x80 + c.toNat / 64 % 64 ∧ 0x80 + c.toNat / 64 % 64 < 0xC0)
          ∧ (0x80 ≤ 0x80 + c.toNat % 64 ∧ 0x80 + c.toNat % 64 < 0xC0)
          ∧ (0xF0 + c.toNat / 262144 = 0xF0 → 0x90 ≤ 0x80 + c.toNat / 4096 % 64)
          ∧ (0xF0 + c.toNat / 262144 = 0xF4 → 0x80 + c.toNat / 4096 % 64 < 0x90) by omega)]
        rw [show (0xF0 + c.toNat / 262144 - 0xF0) * 262144 + (0x80 + c.toNat / 4096 % 64 - 0x80) * 4096
          + (0x80 + c.toNat / 64 % 64 - 0x80) * 64 + (0x80 + c.toNat % 64 - 0x80)
          = c.toNat by omega, hofn]

theorem utf8Decode_encodeChar (c : Char) (rest : List Nat) :
    utf8Decode (utf8EncodeChar c ++ rest)
      = (utf8Decode rest).map (fun cs => c :: cs) := by
  rw [utf8Decode]
  rw [utf8DecodeStep_encodeChar]

theorem utf8Decode_encode_append (s : List Char) (rest : List Nat) :
    utf8Decode (utf8Encode s ++ rest) = (utf8Decode rest).map (fun cs => s ++ cs) := by
  induction s with
  | nil =>
    rw [utf8Encode]
    simp only [List.flatMap_nil, List.nil_append]
    cases utf8Decode rest <;> simp
  | cons c cs ih =>
    have hflat : utf8Encode (c :: cs) = utf8EncodeChar c ++ utf8Encode cs := by
      rw [utf8Encode, List.flatMap_cons]; rfl
    rw [hflat, List.append_assoc, utf8Decode_encodeChar, ih]
    cases utf8Decode rest <;> simp

theorem utf8Decode_nil : utf8Decode [] = some [] := by
  rw [utf8Decode]
  rw [show utf8DecodeStep [] = none from rfl]
  simp

theorem utf8Decode_encode (s : List Char) : utf8Decode (utf8Encode s) = some s := by
  have h := utf8Decode_encode_append s []
  rw [List.append_nil] at h
  rw [h, utf8Decode_nil]
  simp

/-! ## JSON envelope codec (the serde_json encoding of MessageOverWire) -/

/-- The wire representation of a message envelope (src/message.rs,
MessageOverWire): UUIDs stringified, bulk data shipped separately. -/
inductive MessageOverWire where
  | getVersion
  | readFile (uuid : List Char)
  | writeFile (uuid : List Char)
  | deleteFile (uuid : List Char)
  | myVersionIs (ver : List Char)
  | fileContents
  | ack
  | error (msg : List Char)
  deriving DecidableEq, Repr

/-- One character of serde_json string escaping: quote and backslash get a
backslash, the control characters 8/9/10/12/13 get their short forms, other
control characters a \u00XX escape, everything else is emitted as is. -/
def jsonEscapeChar (c : Char) : List Char :=
  if c = '"' then ['\\', '"']
  else if c = '\\' then ['\\', '\\']
  else if c = Char.ofNat 8 then ['\\', 'b']
  else if c = Char.ofNat 9 then ['\\', 't']
  else if c = Char.ofNat 10 then ['\\', 'n']
  else if c = Char.ofNat 12 then ['\\', 'f']
  else if c = Char.ofNat 13 then ['\\', 'r']
  else if c.toNat < 0x20 then
    ['\\', 'u', '0', '0', hexDigitLower (c.toNat / 16), hexDigitLower (c.toNat % 16)]
  else [c]

/-- A serde_json string literal: quote, escaped characters, quote. -/
def renderJsonString (s : List Char) : List Char :=
  '"' :: (s.flatMap jsonEscapeChar ++ ['"'])

/-- serde_json serialization of the externally tagged MessageOverWire enum:
a bare string for unit variants, a one-entry object for newtype variants. -/
def renderWire : MessageOverWire → List Char
  | .getVersion => renderJsonString "GetVersion".data
  | .fileContents => renderJsonString "FileContents".data
  | .ack => renderJsonString "Ack".data
  | .readFile u => '{' :: (renderJsonString "ReadFile".data
      ++ ':' :: (renderJsonString u ++ ['}']))
  | .writeFile u => '{' :: (renderJsonString "WriteFile".data
      ++ ':' :: (renderJsonString u ++ ['}']))
  | .deleteFile u => '{' :: (renderJsonString "DeleteFile".data
      ++ ':' :: (renderJsonString u ++ ['}']))
  | .myVersionIs v => '{' :: (renderJsonString "MyVersionIs".data
      ++ ':' :: (renderJsonString v ++ ['}']))
  | .error m => '{' :: (renderJsonString "Error".data
      ++ ':' :: (renderJsonString m ++ ['}']))

/-- Value of a four-hex-digit escape group. -/
def hex4Val (a b c d : Char) : Option Nat :=
  match hexDigitVal a, hexDigitVal b, hexDigitVal c, hexDigitVal d with
  | some va, some vb, some vc, some vd => some (((va * 16 + vb) * 16 + vc) * 16 + vd)
  | _, _, _, _ => none

/-- One step of the serde_json string body parser: consumes either the
closing quote (`(none, rest)`) or one (possibly escaped) character.
Handles the named escapes, \u escapes including surrogate pairs, and
rejects raw control characters and unpaired surrogates. -/
def parseStringStep : List Char → Option (Option Char × List Char)
  | [] => none
  | c :: rest =>
    if c = '"' then some (none, rest)
    else if c = '\\' then
      match rest with
      | e :: rest2 =>
        if e = '"' then some (some '"', rest2)
        else if e = '\\' then some (some '\\', rest2)
        else if e = '/' then some (some '/', rest2)
        else if e = 'b' then some (some (Char.ofNat 8), rest2)
        else if e = 'f' then some (some (Char.ofNat 12), rest2)
        else if e = 'n' then some (some (Char.ofNat 10), rest2)
        else if e = 'r' then some (some (Char.ofNat 13), rest2)
        else if e = 't' then some (some (Char.ofNat 9), rest2)
        else if e = 'u' then
          match rest2 with
          | a :: b :: c2 :: d :: rest3 =>
            match hex4Val a b c2 d with
            | some h1 =>
              if h1 < 0xD800 ∨ 0xE000 ≤ h1 then some (some (Char.ofNat h1), rest3)
              else if h1 < 0xDC00 then
                match rest3 with
                | u1 :: u2 :: a2 :: b2 :: c3 :: d2 :: rest5 =>
                  if u1 = '\\' ∧ u2 = 'u' then
                    match hex4Val a2 b2 c3 d2 with
                    | some h2 =>
                      if 0xDC00 ≤ h2 ∧ h2 < 0xE000 then
                        some (some (Char.ofNat
                          (0x10000 + (h1 - 0xD800) * 1024 + (h2 - 0xDC00))), rest5)
                      else none
                    | none => none
                  else none
                | _ => none
              else none
            | none => none
          | _ => none
        else none
      | [] => none
    else if c.toNat < 0x20 then none
    else some (some c, rest)

theorem parseStringStep_length : ∀ s oc rem, parseStringStep s = some (oc, rem) →
    rem.length < s.length := by
  intro s oc rem h
  match s with
  | [] => simp [parseStringStep] at h
  | c :: rest =>
    rw [parseStringStep.eq_def] at h
    simp only [] at h
    by_cases h1 : c = '"'
    · rw [if_pos h1] at h
      injection h with h2'
      injection h2' with _ hrem
      subst hrem; simp only [List.length_cons]; omega
    · rw [if_neg h1] at h
      by_cases h2 : c = '\\'
      · rw [if_pos h2] at h
        match rest with
        | [] => simp at h
        | e :: rest2 =>
          simp only [] at h
          by_cases g1 : e = '"'
          · rw [if_pos g1] at h
            injection h with h2'
            injection h2' with _ hrem
            subst hrem; simp only [List.length_cons]; omega
          · rw [if_neg g1] at h
            by_cases g2 : e = '\\'
            · rw [if_pos g2] at h
              injection h with h2'
              injection h2' with _ hrem
              subst hrem; simp only [List.length_cons]; omega
            · rw [if_neg g2] at h
              by_cases g3 : e = '/'
              · rw [if_pos g3] at h
                injection h with h2'
                injection h2' with _ hrem
                subst hrem; simp only [List.length_cons]; omega
              · rw [if_neg g3] at h
                by_cases g4 : e = 'b'
                · rw [if_pos g4] at h
                  injection h with h2'
                  injection h2' with _ hrem
                  subst hrem; simp only [List.length_cons]; omega
                · rw [if_neg g4] at h
                  by_cases g5 : e = 'f'
                  · rw [if_pos g5] at h
                    injection h with h2'
                    injection h2' with _ hrem
                    subst hrem; simp only [List.length_cons]; omega
                  · rw [if_neg g5] at h
                    by_cases g6 : e = 'n'
                    · rw [if_pos g6] at h
                      injection h with h2'
                      injection h2' with _ hrem
                      subst hrem; simp only [List.length_cons]; omega
                    · rw [if_neg g6] at h
                      by_cases g7 : e = 'r'
                      · rw [if_pos g7] at h
                        injection h with h2'
                        injection h2' with _ hrem
                        subst hrem; simp only [List.length_cons]; omega
                      · rw [if_neg g7] at h
                        by_cases g8 : e = 't'
                        · rw [if_pos g8] at h
                          injection h with h2'
                          injection h2' with _ hrem
                          subst hrem; simp only [List.length_cons]; omega
                        · rw [if_neg g8] at h
                          by_cases g9 : e = 'u'
                          · rw [if_pos g9] at h
                            match rest2 with
                            | [] => simp at h
                            | [a] => simp at h
                            | [a, b] => simp at h
                            | [a, b, c2] => simp at h
                            | a :: b :: c2 :: d :: rest3 =>
                              simp only [] at h
                              rcases hh : hex4Val a b c2 d with _ | h1v
                              · rw [hh] at h; simp at h
                              · rw [hh] at h
                                simp only [] at h
                                by_cases k1 : h1v < 0xD800 ∨ 0xE000 ≤ h1v
                                · rw [if_pos k1] at h
                                  injection h with h2'
                                  injection h2' with _ hrem
                                  subst hrem; simp only [List.length_cons]; omega
                                · rw [if_neg k1] at h
                                  by_cases k2 : h1v < 0xDC00
                                  · rw [if_pos k2] at h
                                    match rest3 with
                                    | [] => simp at h
                                    | [u1] => simp at h
                                    | [u1, u2] => simp at h
                                    | [u1, u2, a2] => simp at h
                                    | [u1, u2, a2, b2] => simp at h
                                    | [u1, u2, a2, b2, c3] => simp at h
                                    | u1 :: u2 :: a2 :: b2 :: c3 :: d2 :: rest5 =>
                                      simp only [] at h
                                      by_cases m1 : u1 = '\\' ∧ u2 = 'u'
                                      · rw [if_pos m1] at h
                                        rcases hh2 : hex4Val a2 b2 c3 d2 with _ | h2v
                                        · rw [hh2] at h; simp at h
                                        · rw [hh2] at h
                                          simp only [] at h
                                          by_cases m2 : 0xDC00 ≤ h2v ∧ h2v < 0xE000
                                          · rw [if_pos m2] at h
                                            injection h with h2'
                                            injection h2' with _ hrem
                                            subst hrem
                                            simp only [List.length_cons]; omega
                                          · rw [if_neg m2] at h; simp at h
                                      · rw [if_neg m1] at h; simp at h
                                  · rw [if_neg k2] at h; simp at h
                          · rw [if_neg g9] at h; simp at h
      · rw [if_neg h2] at h
        by_cases h3 : c.toNat < 0x20
        · rw [if_pos h3] at h; simp at h
        · rw [if_neg h3] at h
          injection h with h2'
          injection h2' with _ hrem
          subst hrem; simp only [List.length_cons]; omega

/-- JSON string body parser (after the opening quote), faithful to
serde_json; returns the decoded string and the input remaining after the
closing quote. -/
def parseStringBody (s : List Char) : Option (List Char × List Char) :=
  match hstep : parseStringStep s with
  | some (some c, rem) => (parseStringBody rem).map (fun sr => (c :: sr.1, sr.2))
  | some (none, rem) => some ([], rem)
  | none => none
termination_by s.length
decreasing_by exact parseStringStep_length s (some c) rem hstep

/-- A JSON string value: an opening quote followed by a string body. -/
def parseJsonString (s : List Char) : Option (List Char × List Char) :=
  match s with
  | c :: rest => if c = '"' then parseStringBody rest else none
  | [] => none

/-- The JSON whitespace characters serde_json skips. -/
def isJsonWs (c : Char) : Bool :=
  c == ' ' || c == Char.ofNat 9 || c == Char.ofNat 10 || c == Char.ofNat 13

def skipWs (s : List Char) : List Char := s.dropWhile isJsonWs

/-- Unit variants deserialized from a bare JSON string (serde rejects
newtype-variant names here). -/
def wireFromTagString (tag : List Char) : Option MessageOverWire :=
  if tag = "GetVersion".data then some MessageOverWire.getVersion
  else if tag = "FileContents".data then some MessageOverWire.fileContents
  else if tag = "Ack".data then some MessageOverWire.ack
  else none

/-- Newtype variants deserialized from a one-entry JSON object whose value
is a string. -/
def wireFromTagged (tag payload : List Char) : Option MessageOverWire :=
  if tag = "ReadFile".data then some (MessageOverWire.readFile payload)
  else if tag = "WriteFile".data then some (MessageOverWire.writeFile payload)
  else if tag = "DeleteFile".data then some (MessageOverWire.deleteFile payload)
  else if tag = "MyVersionIs".data then some (MessageOverWire.myVersionIs payload)
  else if tag = "Error".data then some (MessageOverWire.error payload)
  else none

/-- serde_json deserialization of MessageOverWire from a character stream:
one JSON value (string or one-entry object with a string value), then end
of input up to trailing whitespace. -/
def parseWire (s : List Char) : Option MessageOverWire :=
  match skipWs s with
  | [] => none
  | c :: rest =>
    if c = '"' then
      match parseStringBody rest with
      | some (tag, rest2) => if skipWs rest2 = [] then wireFromTagString tag else none
      | none => none
    else if c = '{' then
      match parseJsonString (skipWs rest) with
      | some (tag, rest2) =>
        match skipWs rest2 with
        | c2 :: rest3 =>
          if c2 = ':' then
            match parseJsonString (skipWs rest3) with
            | some (payload, rest4) =>
              match skipWs rest4 with
              | c3 :: rest5 =>
                if c3 = '}' then
                  if skipWs rest5 = [] then wireFromTagged tag payload else none
                else none
              | [] => none
            | none => none
          else none
        | [] => none
      | none => none
    else none

theorem skipWs_not_ws {c : Char} (t : List Char) (h : isJsonWs c = false) :
    skipWs (c :: t) = c :: t := by
  simp [skipWs, List.dropWhile_cons, h]

theorem parseStringStep_quote (tail : List Char) :
    parseStringStep ('"' :: tail) = some (none, tail) := by
  simp [parseStringStep.eq_def]

theorem parseStringStep_escape (c : Char) (tail : List Char) :
    parseStringStep (jsonEscapeChar c ++ tail) = some (some c, tail) := by
  by_cases h1 : c = '"'
  · subst h1; simp [jsonEscapeChar, parseStringStep.eq_def]
  · by_cases h2 : c = '\\'
    · subst h2; simp [jsonEscapeChar, parseStringStep.eq_def]
    · by_cases h3 : c = Char.ofNat 8
      · subst h3; simp [jsonEscapeChar, parseStringStep.eq_def]
      · by_cases h4 : c = Char.ofNat 9
        · subst h4; simp [jsonEscapeChar, parseStringStep.eq_def]
        · by_cases h5 : c = Char.ofNat 10
          · subst h5; simp [jsonEscapeChar, parseStringStep.eq_def]
          · by_cases h6 : c = Char.ofNat 12
            · subst h6; simp [jsonEscapeChar, parseStringStep.eq_def]
            · by_cases h7 : c = Char.ofNat 13
              · subst h7; simp [jsonEscapeChar, parseStringStep.eq_def]
              · by_cases h8 : c.toNat < 0x20
                · have hhex : hex4Val '0' '0' (hexDigitLower (c.toNat / 16))
                      (hexDigitLower (c.toNat % 16)) = some c.toNat := by
                    rw [hex4Val, show hexDigitVal '0' = some 0 from rfl,
                      hexDigitVal_hexDigitLower (c.toNat / 16) (by omega),
                      hexDigitVal_hexDigitLower (c.toNat % 16) (by omega)]
                    simp only [Option.some.injEq]
                    omega
                  have hlow : c.toNat < 0xD800 := by omega
                  simp [jsonEscapeChar, parseStringStep.eq_def, h1, h2, h3, h4, h5, h6,
                    h7, h8, hhex, hlow, Char.ofNat_toNat]
                · simp [jsonEscapeChar, parseStringStep.eq_def, h1, h2, h3, h4, h5, h6,
                    h7, h8]

theorem parseStringBody_escape (s : List Char) (rest : List Char) :
    parseStringBody (s.flatMap jsonEscapeChar ++ '"' :: rest) = some (s, rest) := by
  induction s with
  | nil =>
    simp only [List.flatMap_nil, List.nil_append]
    rw [parseStringBody, parseStringStep_quote]
  | cons c cs ih =>
    have hflat : (c :: cs).flatMap jsonEscapeChar
        = jsonEscapeChar c ++ cs.flatMap jsonEscapeChar := by
      rw [List.flatMap_cons]
    rw [hflat, List.append_assoc]
    rw [parseStringBody, parseStringStep_escape]
    simp only []
    rw [ih]
    rfl

theorem parseJsonString_render (s : List Char) (rest : List Char) :
    parseJsonString (renderJsonString s ++ rest) = some (s, rest) := by
  rw [renderJsonString]
  have hshape : ('"' :: (s.flatMap jsonEscapeChar ++ ['"'])) ++ rest
      = '"' :: (s.flatMap jsonEscapeChar ++ '"' :: rest) := by
    simp
  rw [hshape, parseJsonString]
  first
  | rw [if_pos trivial, parseStringBody_escape]
  | rw [if_pos rfl, parseStringBody_escape]

theorem parseWire_renderWire (w : MessageOverWire) : parseWire (renderWire w) = some w := by
  have hq : isJsonWs '"' = false := by decide
  have hbrace : isJsonWs '{' = false := by decide
  have hcolon : isJsonWs ':' = false := by decide
  have hcbrace : isJsonWs '}' = false := by decide
  have unitCase : ∀ (tag : List Char),
      parseWire (renderJsonString tag) = wireFromTagString tag := by
    intro tag
    rw [renderJsonString, parseWire, skipWs_not_ws _ hq]
    simp only []
    first
    | rw [if_pos trivial]
    | rw [if_pos rfl]
    rw [show tag.flatMap jsonEscapeChar ++ ['"']
      = tag.flatMap jsonEscapeChar ++ '"' :: [] from rfl]
    rw [parseStringBody_escape]
    simp only []
    rw [show skipWs ([] : List Char) = [] from rfl]
    first
    | rw [if_pos trivial]
    | rw [if_pos rfl]
  have taggedCase : ∀ (tag payload : List Char),
      parseWire ('{' :: (renderJsonString tag ++ ':' :: (renderJsonString payload ++ ['}'])))
        = wireFromTagged tag payload := by
    intro tag payload
    rw [parseWire, skipWs_not_ws _ hbrace]
    simp only []
    rw [if_neg (by decide)]
    first
    | rw [if_pos trivial]
    | rw [if_pos rfl]
    rw [show skipWs (renderJsonString tag ++ ':' :: (renderJsonString payload ++ ['}']))
        = renderJsonString tag ++ ':' :: (renderJsonString payload ++ ['}']) from by
      rw [renderJsonString, List.cons_append, skipWs_not_ws _ hq]]
    rw [parseJsonString_render]
    simp only []
    rw [skipWs_not_ws _ hcolon]
    simp only []
    first
    | rw [if_pos trivial]
    | rw [if_pos rfl]
    rw [show skipWs (renderJsonString payload ++ ['}'])
        = renderJsonString payload ++ ['}'] from by
      rw [renderJsonString, List.cons_append, skipWs_not_ws _ hq]]
    rw [parseJsonString_render]
    simp only []
    rw [skipWs_not_ws _ hcbrace]
    simp only []
    first
    | rw [if_pos trivial]
    | rw [if_pos rfl]
    rw [show skipWs ([] : List Char) = [] from rfl]
    first
    | rw [if_pos trivial]
    | rw [if_pos rfl]
  cases w with
  | getVersion => rw [renderWire, unitCase]; decide
  | fileContents => rw [renderWire, unitCase]; decide
  | ack => rw [renderWire, unitCase]; decide
  | readFile u =>
    rw [renderWire, taggedCase, wireFromTagged]
    first
    | rw [if_pos trivial]
    | rw [if_pos rfl]
  | writeFile u =>
    rw [renderWire, taggedCase, wireFromTagged]
    rw [if_neg (by decide)]
    first
    | rw [if_pos trivial]
    | rw [if_pos rfl]
  | deleteFile u =>
    rw [renderWire, taggedCase, wireFromTagged]
    rw [if_neg (by decide), if_neg (by decide)]
    first
    | rw [if_pos trivial]
    | rw [if_pos rfl]
  | myVersionIs v =>
    rw [renderWire, taggedCase, wireFromTagged]
    rw [if_neg (by decide), if_neg (by decide), if_neg (by decide)]
    first
    | rw [if_pos trivial]
    | rw [if_pos rfl]
  | error m =>
    rw [renderWire, taggedCase, wireFromTagged]
    rw [if_neg (by decide), if_neg (by decide), if_neg (by decide), if_neg (by decide)]
    first
    | rw [if_pos trivial]
    | rw [if_pos rfl]

/-! ## Message layer (src/message.rs) -/

/-- The in-memory message type (src/message.rs, Message).  UUIDs are
128-bit values, payloads raw byte lists. -/
inductive Message where
  | getVersion
  | readFile (uuid : Nat)
  | writeFile (uuid : Nat) (data : List Nat)
  | deleteFile (uuid : Nat)
  | myVersionIs (ver : List Char)
  | fileContents (data : List Nat)
  | ack
  | error (msg : List Char)
  deriving DecidableEq, Repr

/-- `parse_uuid`: `Uuid::try_parse` lifted into the parse error type. -/
def parse_uuid (s : List Char) : Except ParseMessageError Nat :=
  match uuid_try_parse s with
  | some u => Except.ok u
  | none => Except.error ParseMessageError.parseUuidErr

/-- `MessageOverWire::from_message`: split a message into its JSON
envelope (UUIDs stringified) and its raw payload. -/
def from_message : Message → MessageOverWire × List Nat
  | .getVersion => (.getVersion, [])
  | .readFile u => (.readFile (stringify_uuid u), [])
  | .writeFile u data => (.writeFile (stringify_uuid u), data)
  | .deleteFile u => (.deleteFile (stringify_uuid u), [])
  | .myVersionIs v => (.myVersionIs v, [])
  | .fileContents data => (.fileContents, data)
  | .ack => (.ack, [])
  | .error e => (.error e, [])

/-- `MessageOverWire::to_message`: reunite an envelope with its payload,
parsing stringified UUIDs. -/
def to_message (w : MessageOverWire) (data : List Nat) : Except ParseMessageError Message :=
  match w with
  | .getVersion => Except.ok Message.getVersion
  | .readFile u => (parse_uuid u).map Message.readFile
  | .writeFile u => (parse_uuid u).map (fun uu => Message.writeFile uu data)
  | .deleteFile u => (parse_uuid u).map Message.deleteFile
  | .myVersionIs v => Except.ok (Message.myVersionIs v)
  | .fileContents => Except.ok (Message.fileContents data)
  | .ack => Except.ok Message.ack
  | .error e => Except.ok (Message.error e)

/-- `write_message`: message id (u32, big-endian), envelope byte length
(u32 — the Rust `as u32` cast wraps, which `be32` models), payload byte
length (u64), envelope bytes, payload bytes. -/
def write_message (id : Nat) (m : Message) : List Nat :=
  be32 id ++ (be32 (utf8Encode (renderWire (from_message m).1)).length
    ++ (be64 (from_message m).2.length
      ++ (utf8Encode (renderWire (from_message m).1) ++ (from_message m).2)))

/-- `parse_message` over an in-memory byte stream.  `cap` is the largest
buffer the allocator will grant: `try_reserve` fails — producing
`RequestTooLarge` before any of the stated bytes are read — exactly when a
stated length exceeds it.  Returns the parsed id and message along with
the unconsumed remainder of the stream. -/
def parse_message (cap : Nat) (stream : List Nat) :
    Except ParseMessageError ((Nat × Message) × List Nat) :=
  match readU32 stream with
  | .error e => .error e
  | .ok (id, s1) =>
    match readU32 s1 with
    | .error e => .error e
    | .ok (messageLength, s2) =>
      match readU64 s2 with
      | .error e => .error e
      | .ok (dataLength, s3) =>
        if cap < messageLength then .error (.requestTooLarge messageLength)
        else match readBytes messageLength s3 with
          | .error e => .error e
          | .ok (wireMessageBuf, s4) =>
            if cap < dataLength then .error (.requestTooLarge dataLength)
            else match readBytes dataLength s4 with
              | .error e => .error e
              | .ok (dataBuf, s5) =>
                match utf8Decode wireMessageBuf with
                | none => .error .parseJsonErr
                | some chars =>
                  match parseWire chars with
                  | none => .error .parseJsonErr
                  | some wm =>
                    match to_message wm dataBuf with
                    | .error e => .error e
                    | .ok m => .ok ((id, m), s5)

/-- The UUID fields a Message carries are in the u128 range (automatic for
every value produced by the Rust code, where uuids are u128). -/
def message_uuid_wf : Message → Prop
  | .readFile u => u < 2 ^ 128
  | .writeFile u _ => u < 2 ^ 128
  | .deleteFile u => u < 2 ^ 128
  | _ => True

theorem to_from_message {m : Message} (hwf : message_uuid_wf m) :
    to_message (from_message m).1 (from_message m).2 = Except.ok m := by
  cases m with
  | getVersion => rfl
  | readFile u =>
    rw [show (from_message (Message.readFile u)).1
      = MessageOverWire.readFile (stringify_uuid u) from rfl]
    rw [to_message, parse_uuid, uuid_roundtrip hwf]
    rfl
  | writeFile u data =>
    rw [show (from_message (Message.writeFile u data)).1
      = MessageOverWire.writeFile (stringify_uuid u) from rfl]
    rw [to_message, parse_uuid, uuid_roundtrip hwf]
    rfl
  | deleteFile u =>
    rw [show (from_message (Message.deleteFile u)).1
      = MessageOverWire.deleteFile (stringify_uuid u) from rfl]
    rw [to_message, parse_uuid, uuid_roundtrip hwf]
    rfl
  | myVersionIs v => rfl
  | fileContents data => rfl
  | ack => rfl
  | error e => rfl

/-- Claim C2 (amended): the encode-decode round trip.  For every MessageID
below 2^32 and every Message whose encoded JSON envelope is shorter than
2^32 bytes and whose payload is shorter than 2^64 bytes, and whenever the
allocator cap admits both buffers, parsing the bytes written by
write_message returns exactly the same id and message (and leaves any
following bytes unconsumed).  The length bounds are forced by the
counterexample below: the Rust code writes the envelope length with an
`as u32` cast that silently wraps for a 4 GiB envelope. -/
theorem c2_roundtrip_amended (cap id : Nat) (m : Message) (rest : List Nat)
    (hid : id < 2 ^ 32)
    (hwf : message_uuid_wf m)
    (hjlt : (utf8Encode (renderWire (from_message m).1)).length < 2 ^ 32)
    (hjcap : (utf8Encode (renderWire (from_message m).1)).length ≤ cap)
    (hdlt : (from_message m).2.length < 2 ^ 64)
    (hdcap : (from_message m).2.length ≤ cap) :
    parse_message cap (write_message id m ++ rest) = Except.ok ((id, m), rest) := by
  rw [write_message, parse_message]
  simp only [List.append_assoc]
  rw [readU32_be32, Nat.mod_eq_of_lt hid]
  simp only []
  rw [readU32_be32, Nat.mod_eq_of_lt hjlt]
  simp only []
  rw [readU64_be64, Nat.mod_eq_of_lt hdlt]
  simp only []
  rw [if_neg (by omega)]
  rw [readBytes_append _ rfl]
  simp only []
  rw [if_neg (by omega)]
  rw [readBytes_append _ rfl]
  simp only []
  rw [utf8Decode_encode]
  simp only []
  rw [parseWire_renderWire]
  simp only []
  rw [to_from_message hwf]

/-- Concrete message used by the C2 witness. -/
def c2msg : Message := Message.writeFile 5 [1, 2, 3]

/-- Claim C2 amended, witness: a concrete WriteFile round trip with two
trailing stream bytes left unconsumed. -/
theorem c2_witness :
    parse_message (2 ^ 64) (write_message 7 c2msg ++ [9, 9])
      = Except.ok ((7, c2msg), [9, 9]) :=
  c2_roundtrip_amended (2 ^ 64) 7 c2msg [9, 9] (by norm_num)
    (by show (5 : Nat) < 2 ^ 128; norm_num)
    (by decide) (by decide) (by decide) (by decide)

theorem to_message_no_requestTooLarge (w : MessageOverWire) (d : List Nat) (n : Nat) :
    to_message w d ≠ Except.error (ParseMessageError.requestTooLarge n) := by
  cases w with
  | readFile u =>
    rw [to_message, parse_uuid]
    rcases uuid_try_parse u with _ | v <;> simp [Except.map]
  | writeFile u =>
    rw [to_message, parse_uuid]
    rcases uuid_try_parse u with _ | v <;> simp [Except.map]
  | deleteFile u =>
    rw [to_message, parse_uuid]
    rcases uuid_try_parse u with _ | v <;> simp [Except.map]
  | getVersion => simp [to_message]
  | myVersionIs v => simp [to_message]
  | fileContents => simp [to_message]
  | ack => simp [to_message]
  | error e => simp [to_message]

/-- Claim C5: parse_message fails with RequestTooLarge exactly when a
stated length exceeds the allocator cap.  Part 1: an oversized envelope
length fails before any of the stated bytes are read (the tail of the
stream is arbitrary `junk`).  Part 2: an oversized payload length fails
after only the envelope was read.  Part 3: when both lengths are within
the cap, the parse never fails with RequestTooLarge. -/
theorem c5_request_too_large (cap id msgLen dataLen : Nat) (junk : List Nat)
    (hm : msgLen < 2 ^ 32) (hd : dataLen < 2 ^ 64) :
    (cap < msgLen →
      parse_message cap (be32 id ++ (be32 msgLen ++ (be64 dataLen ++ junk)))
        = Except.error (ParseMessageError.requestTooLarge msgLen)) ∧
    (∀ env : List Nat, env.length = msgLen → msgLen ≤ cap → cap < dataLen →
      parse_message cap (be32 id ++ (be32 msgLen ++ (be64 dataLen ++ (env ++ junk))))
        = Except.error (ParseMessageError.requestTooLarge dataLen)) ∧
    (msgLen ≤ cap → dataLen ≤ cap → ∀ n,
      parse_message cap (be32 id ++ (be32 msgLen ++ (be64 dataLen ++ junk)))
        ≠ Except.error (ParseMessageError.requestTooLarge n)) := by
  refine ⟨?_, ?_, ?_⟩
  · intro hcap
    rw [parse_message, readU32_be32]
    simp only []
    rw [readU32_be32, Nat.mod_eq_of_lt hm]
    simp only []
    rw [readU64_be64, Nat.mod_eq_of_lt hd]
    simp only []
    rw [if_pos hcap]
  · intro env henv hmok hcap
    rw [parse_message, readU32_be32]
    simp only []
    rw [readU32_be32, Nat.mod_eq_of_lt hm]
    simp only []
    rw [readU64_be64, Nat.mod_eq_of_lt hd]
    simp only []
    rw [if_neg (by omega)]
    rw [readBytes_append _ henv]
    simp only []
    rw [if_pos hcap]
  · intro hmok hdok n
    rw [parse_message, readU32_be32]
    simp only []
    rw [readU32_be32, Nat.mod_eq_of_lt hm]
    simp only []
    rw [readU64_be64, Nat.mod_eq_of_lt hd]
    simp only []
    rw [if_neg (by omega)]
    rw [readBytes]
    by_cases hlen1 : junk.length < msgLen
    · rw [if_pos hlen1]; simp
    · rw [if_neg hlen1]
      simp only []
      rw [if_neg (by omega)]
      rw [readBytes]
      by_cases hlen2 : (junk.drop msgLen).length < dataLen
      · rw [if_pos hlen2]; simp
      · rw [if_neg hlen2]
        simp only []
        rcases utf8Decode (junk.take msgLen) with _ | chars
        · simp
        · simp only []
          rcases parseWire chars with _ | wm
          · simp
          · simp only []
            rcases hmsg : to_message wm ((junk.drop msgLen).take dataLen) with e | mm
            · simp only []
              intro hctr
              injection hctr with he
              exact to_message_no_requestTooLarge wm _ n (hmsg.trans (by rw [he]))
            · simp

/-- Claim C5, witness: at cap 10 an envelope length of 11 is rejected with
RequestTooLarge 11 without reading past the header. -/
theorem c5_witness :
    parse_message 10 (be32 0 ++ (be32 11 ++ (be64 0 ++ [])))
      = Except.error (ParseMessageError.requestTooLarge 11) :=
  (c5_request_too_large 10 0 11 0 [] (by norm_num) (by norm_num)).1 (by norm_num)

/-! ## Claim C2, counterexample: the `as u32` cast truncates 4 GiB envelopes -/

/-- A Message whose JSON envelope is longer than 2^32 bytes: an Error
carrying 2^32 letters. -/
def bigErrorMsg : Message := Message.error (List.replicate (2 ^ 32) 'a')

/-- The first 12 characters of the envelope of `bigErrorMsg`. -/
def c2pfx : List Char := ['{', '"', 'E', 'r', 'r', 'o', 'r', '"', ':', '"', 'a', 'a']

theorem utf8Encode_cons (c : Char) (t : List Char) :
    utf8Encode (c :: t) = utf8EncodeChar c ++ utf8Encode t := by
  rw [utf8Encode, List.flatMap_cons]
  rfl

theorem utf8Encode_append (a b : List Char) :
    utf8Encode (a ++ b) = utf8Encode a ++ utf8Encode b := by
  rw [utf8Encode, utf8Encode, utf8Encode, List.flatMap_append]

theorem flatMap_escape_replicate (n : Nat) :
    (List.replicate n 'a').flatMap jsonEscapeChar = List.replicate n 'a' := by
  induction n with
  | zero => rfl
  | succ k ih =>
    rw [List.replicate_succ, List.flatMap_cons, ih,
      show jsonEscapeChar 'a' = ['a'] from by decide]
    rfl

theorem utf8Encode_replicate (n : Nat) :
    utf8Encode (List.replicate n 'a') = List.replicate n 97 := by
  induction n with
  | zero => rfl
  | succ k ih =>
    rw [List.replicate_succ, utf8Encode_cons, ih,
      show utf8EncodeChar 'a' = [97] from by decide, List.replicate_succ]
    rfl

theorem replicate_add_two (k : Nat) (c : Char) :
    List.replicate (k + 2) c = c :: c :: List.replicate k c := by
  rw [show k + 2 = (k + 1) + 1 from rfl, List.replicate_succ, List.replicate_succ]

theorem bigError_env_chars :
    renderWire (from_message bigErrorMsg).1
      = c2pfx ++ (List.replicate (2 ^ 32 - 2) 'a' ++ ['"', '}']) := by
  rw [show (from_message bigErrorMsg).1
    = MessageOverWire.error (List.replicate (2 ^ 32) 'a') from rfl]
  rw [renderWire, renderJsonString, renderJsonString]
  rw [show "Error".data.flatMap jsonEscapeChar = "Error".data from by decide]
  rw [flatMap_escape_replicate]
  rw [show List.replicate (2 ^ 32) 'a'
      = 'a' :: 'a' :: List.replicate (2 ^ 32 - 2) 'a' from by
    conv_lhs => rw [show (2 : Nat) ^ 32 = (2 ^ 32 - 2) + 2 by norm_num]
    rw [replicate_add_two]]
  rw [show "Error".data = ['E', 'r', 'r', 'o', 'r'] from rfl]
  generalize List.replicate (2 ^ 32 - 2) 'a' = R
  simp [c2pfx]

theorem bigError_env_bytes :
    utf8Encode (renderWire (from_message bigErrorMsg).1)
      = utf8Encode c2pfx ++ (List.replicate (2 ^ 32 - 2) 97 ++ [34, 125]) := by
  rw [bigError_env_chars, utf8Encode_append, utf8Encode_append, utf8Encode_replicate]
  rw [show utf8Encode ['"', '}'] = [34, 125] from by decide]

theorem parseWire_c2pfx : parseWire c2pfx = none := by
  rw [show c2pfx = '{' :: ['"', 'E', 'r', 'r', 'o', 'r', '"', ':', '"', 'a', 'a'] from rfl]
  rw [parseWire, skipWs_not_ws _ (by decide)]
  simp only []
  rw [if_neg (by decide)]
  first
  | rw [if_pos trivial]
  | rw [if_pos rfl]
  rw [skipWs_not_ws _ (by decide)]
  rw [show ['"', 'E', 'r', 'r', 'o', 'r', '"', ':', '"', 'a', 'a']
    = '"' :: ['E', 'r', 'r', 'o', 'r', '"', ':', '"', 'a', 'a'] from rfl]
  rw [parseJsonString.eq_def]
  simp only []
  first
  | rw [if_pos trivial]
  | rw [if_pos rfl]
  rw [show ['E', 'r', 'r', 'o', 'r', '"', ':', '"', 'a', 'a']
    = "Error".data.flatMap jsonEscapeChar ++ '"' :: [':', '"', 'a', 'a'] from by decide]
  rw [parseStringBody_escape]
  simp only []
  rw [skipWs_not_ws _ (by decide)]
  simp only []
  first
  | rw [if_pos trivial]
  | rw [if_pos rfl]
  rw [skipWs_not_ws _ (by decide)]
  rw [show ['"', 'a', 'a'] = '"' :: ['a', 'a'] from rfl]
  rw [parseJsonString.eq_def]
  simp only []
  first
  | rw [if_pos trivial]
  | rw [if_pos rfl]
  rw [parseStringBody, show parseStringStep ['a', 'a'] = some (some 'a', ['a']) from by decide]
  simp only []
  rw [parseStringBody, show parseStringStep ['a'] = some (some 'a', []) from by decide]
  simp only []
  rw [parseStringBody, show parseStringStep ([] : List Char) = none from rfl]
  simp

theorem readBytes_zero (s : List Nat) : readBytes 0 s = Except.ok ([], s) := by
  simp [readBytes]

/-- Claim C2, counterexample: the round trip fails for a Message whose
encoded envelope reaches 2^32 bytes.  write_message emits the envelope
length through an `as u32` cast, so for the 2^32 + 12 byte envelope of
`bigErrorMsg` the header says 12; parse_message then reads only the first
12 envelope bytes, whose JSON is an unterminated string, and fails with a
JSON parse error instead of returning the message. -/
theorem c2_counterexample :
    parse_message (2 ^ 64) (write_message 0 bigErrorMsg)
        = Except.error ParseMessageError.parseJsonErr ∧
    (Except.error ParseMessageError.parseJsonErr :
        Except ParseMessageError ((Nat × Message) × List Nat))
      ≠ Except.ok ((0, bigErrorMsg), []) := by
  constructor
  · have hpfxlen : (utf8Encode c2pfx).length = 12 := by decide
    have hlen : (utf8Encode c2pfx ++ (List.replicate (2 ^ 32 - 2) 97 ++ [34, 125])).length
        = 2 ^ 32 + 12 := by
      rw [List.length_append, List.length_append, List.length_replicate, hpfxlen]
      norm_num
    rw [write_message, bigError_env_bytes]
    rw [show (from_message bigErrorMsg).2 = [] from rfl]
    rw [hlen]
    rw [parse_message, readU32_be32]
    simp only []
    rw [readU32_be32]
    simp only []
    rw [show (2 ^ 32 + 12) % 2 ^ 32 = 12 by norm_num]
    rw [show ([] : List Nat).length = 0 from rfl, readU64_be64]
    simp only []
    rw [if_neg (by norm_num)]
    rw [List.append_nil]
    rw [readBytes_append _ hpfxlen]
    simp only []
    rw [show (0 : Nat) % 2 ^ 64 = 0 by norm_num]
    rw [if_neg (by norm_num)]
    rw [readBytes_zero]
    simp only []
    rw [utf8Decode_encode]
    simp only []
    rw [parseWire_c2pfx]
  · simp

/-! ## Storage-node server dispatch (src/storage_node_main.rs) -/

/-- Errors of the storage-node file operations (src/storage_node/mod.rs,
OperationError). -/
inductive OperationError where
  | noFileWithUuid (uuid : Nat)
  | ioErrOp
  deriving DecidableEq, Repr

/-- The environment a storage-node request handler runs against: the
outcome of reading or writing each blob (under the file lock), and the
compile-time CARGO_PKG_VERSION string. -/
structure NodeEnv where
  readResult : Nat → Except OperationError (List Nat)
  writeResult : Nat → List Nat → Except OperationError Unit
  version : List Char

/-- Possible outcomes of handle_message: an Ok reply, an Err (the
signature allows it, though no arm of the Rust function produces one), or
a panic (`todo!()` for the unimplemented arms, `.expect(..)` on failed
file operations), which kills the per-connection task. -/
inductive HandlerOutcome where
  | ok (reply : Message)
  | err (e : OperationError)
  | panicked
  deriving DecidableEq

/-- `handle_message` from src/storage_node_main.rs.  GetVersion answers
MyVersionIs; ReadFile and WriteFile lock the file and reply FileContents
or Ack, but `.expect(..)` panics if the operation fails; DeleteFile and
all four response-kind messages are `todo!()`, a panic. -/
def handle_message (env : NodeEnv) (m : Message) : HandlerOutcome :=
  match m with
  | .getVersion => .ok (.myVersionIs env.version)
  | .readFile u =>
    match env.readResult u with
    | .ok data => .ok (.fileContents data)
    | .error _ => .panicked
  | .writeFile u data =>
    match env.writeResult u data with
    | .ok _ => .ok .ack
    | .error _ => .panicked
  | .deleteFile _ => .panicked
  | .myVersionIs _ => .panicked
  | .fileContents _ => .panicked
  | .ack => .panicked
  | .error _ => .panicked

/-- What one iteration of the per-connection loop does with the stream. -/
inductive LoopAction where
  | terminate
  | continueLoop
  | reply (id : Nat) (m : Message)
  | taskPanic
  deriving DecidableEq

/-- Debug formatting of an OperationError for the Error reply.  Dead code
in practice: handle_message never returns Err, so the loop's Err arm is
unreachable; the rendering here only fixes a value for it. -/
def format_operation_error : OperationError → List Char
  | .noFileWithUuid u => "NoFileWithUuid(".data ++ stringify_uuid u ++ ")".data
  | .ioErrOp => "IOError(..)".data

/-- One iteration of the per-connection loop in src/storage_node_main.rs:
an IO error from parse_message breaks the loop, any other parse error
continues it, and a parsed message is dispatched to handle_message, whose
Ok (or Err) result is written back as a reply (an Err as an Error reply);
a panic inside the handler kills the task. -/
def connection_step (env : NodeEnv)
    (parsed : Except ParseMessageError (Nat × Message)) : LoopAction :=
  match parsed with
  | .error ParseMessageError.ioErr => .terminate
  | .error _ => .continueLoop
  | .ok (id, msg) =>
    match handle_message env msg with
    | .ok r => .reply id r
    | .err e => .reply id (.error (format_operation_error e))
    | .panicked => .taskPanic

/-- Environment for the C6 counterexample (its contents are irrelevant to
the DeleteFile arm). -/
def c6env : NodeEnv :=
  ⟨fun _ => Except.error OperationError.ioErrOp, fun _ _ => Except.ok (), "0.1.0".data⟩

/-- Claim C6, counterexample: a DeleteFile request does not produce an
Error reply on the same connection — it hits `todo!()`, which panics and
terminates the per-connection task without any reply being sent. -/
theorem c6_counterexample :
    connection_step c6env (Except.ok (0, Message.deleteFile 0)) = LoopAction.taskPanic := by
  rfl

/-- Claim C6 (amended): full characterization of the per-connection
dispatch.  Only IO errors while reading the socket terminate the loop and
other parse errors keep the connection alive, as claimed; GetVersion and
successful ReadFile/WriteFile produce replies; but DeleteFile, the four
response-kind messages, and failed ReadFile/WriteFile operations panic
(todo!() / expect), killing the per-connection task with no Error reply —
the handler Err-to-Error-reply arm of the loop exists but no handler path
returns Err. -/
theorem c6_server_dispatch_amended (env : NodeEnv) (id : Nat) :
    connection_step env (Except.error ParseMessageError.ioErr) = LoopAction.terminate ∧
    connection_step env (Except.error ParseMessageError.parseJsonErr)
      = LoopAction.continueLoop ∧
    connection_step env (Except.error ParseMessageError.parseUuidErr)
      = LoopAction.continueLoop ∧
    (∀ n, connection_step env (Except.error (ParseMessageError.requestTooLarge n))
      = LoopAction.continueLoop) ∧
    connection_step env (Except.ok (id, Message.getVersion))
      = LoopAction.reply id (Message.myVersionIs env.version) ∧
    (∀ u d, env.readResult u = Except.ok d →
      connection_step env (Except.ok (id, Message.readFile u))
        = LoopAction.reply id (Message.fileContents d)) ∧
    (∀ u e, env.readResult u = Except.error e →
      connection_step env (Except.ok (id, Message.readFile u)) = LoopAction.taskPanic) ∧
    (∀ u d, env.writeResult u d = Except.ok () →
      connection_step env (Except.ok (id, Message.writeFile u d))
        = LoopAction.reply id Message.ack) ∧
    (∀ u d e, env.writeResult u d = Except.error e →
      connection_step env (Except.ok (id, Message.writeFile u d)) = LoopAction.taskPanic) ∧
    (∀ u, connection_step env (Except.ok (id, Message.deleteFile u)) = LoopAction.taskPanic) ∧
    (∀ v, connection_step env (Except.ok (id, Message.myVersionIs v))
      = LoopAction.taskPanic) ∧
    (∀ d, connection_step env (Except.ok (id, Message.fileContents d))
      = LoopAction.taskPanic) ∧
    connection_step env (Except.ok (id, Message.ack)) = LoopAction.taskPanic ∧
    (∀ e, connection_step env (Except.ok (id, Message.error e)) = LoopAction.taskPanic) := by
  refine ⟨rfl, rfl, rfl, fun n => rfl, rfl, ?_, ?_, ?_, ?_,
    fun u => rfl, fun v => rfl, fun d => rfl, rfl, fun e => rfl⟩
  · intro u d h
    rw [connection_step, handle_message, h]
  · intro u e h
    rw [connection_step, handle_message, h]
  · intro u d h
    rw [connection_step, handle_message, h]
  · intro u d e h
    rw [connection_step, handle_message, h]

/-- Environment for the C6 witness: reads succeed with [7], writes
succeed. -/
def c6wenv : NodeEnv :=
  ⟨fun _ => Except.ok [7], fun _ _ => Except.ok (), "0.1.0".data⟩

/-- Claim C6 amended, witness: concrete dispatch outcomes. -/
theorem c6_witness :
    connection_step c6wenv (Except.ok (3, Message.readFile 9))
      = LoopAction.reply 3 (Message.fileContents [7]) ∧
    connection_step c6wenv (Except.ok (3, Message.writeFile 9 [1]))
      = LoopAction.reply 3 Message.ack ∧
    connection_step c6wenv (Except.error ParseMessageError.ioErr)
      = LoopAction.terminate := by
  obtain ⟨h1, _, _, _, _, h6, _, h8, _, _, _, _, _, _⟩ :=
    c6_server_dispatch_amended c6wenv 3
  exact ⟨h6 9 [7] rfl, h8 9 [1] rfl, h1⟩

/-! ## FrontNode.upload_file (src/front_node/mod.rs) -/

/-- `ConnectionError` from src/front_node/storage_node_connection.rs. -/
inductive ConnectionError where
  | clientDisconnected
  deriving DecidableEq, Repr

/-- The front-node error sum (src/front_node/tys.rs, Error).  Payloads
that carry foreign types (io, mysql) are dropped. -/
inductive FrontError where
  | ioErrFr
  | databaseError
  | connectionError (e : ConnectionError)
  | malformedUUIDError
  | unknownUUID
  | unexpectedResponse (m : Message)
  | notConnectedToAnyNode
  | notConnectedToNode
  | noSuchFile
  | noSuchDirectory (topmostExistingDirectory : List Char)
  | noSuchUser (name : List Char)
  deriving DecidableEq

/-- A row of the `files` table as inserted by upload_file. -/
structure FileRow where
  uuid : Nat
  name : List Char
  directoryId : Int
  storedOnNodeId : Int
  deriving DecidableEq

/-- The environment upload_file runs against: the active-connections map
in its (arbitrary) iteration order, each entry carrying the storage-node
id and the response behaviour of `communicate` on that link, plus whether
the metadata INSERT succeeds. -/
structure UploadEnv where
  conns : List (Int × (Message → Except ConnectionError Message))
  insertOk : Bool

/-- Everything observable about one upload_file call: its return value,
the `files` rows actually inserted, and the messages sent to storage
nodes. -/
structure UploadResult where
  result : Except FrontError Nat
  insertedRows : List FileRow
  sentMessages : List (Int × Message)
  deriving DecidableEq

/-- `FrontNode::upload_file` from src/front_node/mod.rs, with the v7 UUID
generated by `Uuid::now_v7()` passed in as `uuid`.  Under the read hold on
the connection map, `get_appropriate_node_for` picks the first key of the
iteration order (NotConnectedToAnyNode if the map is empty); WriteFile
with the contents is sent over that link; only an Ack reply leads to the
metadata INSERT, whose row carries the same uuid, name, directory and
chosen node; a communication error or any non-Ack reply returns an error
with nothing inserted. -/
def upload_file (env : UploadEnv) (uuid : Nat) (filename : List Char)
    (dir : Int) (contents : List Nat) : UploadResult :=
  match env.conns.head? with
  | none => ⟨Except.error FrontError.notConnectedToAnyNode, [], []⟩
  | some (nodeId, comm) =>
    match comm (Message.writeFile uuid contents) with
    | .error e =>
      ⟨Except.error (FrontError.connectionError e), [],
        [(nodeId, Message.writeFile uuid contents)]⟩
    | .ok Message.ack =>
      if env.insertOk then
        ⟨Except.ok uuid, [⟨uuid, filename, dir, nodeId⟩],
          [(nodeId, Message.writeFile uuid contents)]⟩
      else
        ⟨Except.error FrontError.databaseError, [],
          [(nodeId, Message.writeFile uuid contents)]⟩
    | .ok x =>
      ⟨Except.error (FrontError.unexpectedResponse x), [],
        [(nodeId, Message.writeFile uuid contents)]⟩

/-- Claim C7: upload_file sends WriteFile with the contents to the node
chosen by the selection policy (the first connected node) and inserts the
metadata row only after receiving Ack; if the communication fails or the
reply is anything other than Ack, it returns an error and no row for that
UUID is inserted.  (The UUID is the v7 value generated at the top of the
function; the model threads it as a parameter, and the theorem shows the
sent message and the inserted row carry exactly that value.) -/
theorem c7_upload_file (env : UploadEnv) (uuid : Nat) (filename : List Char)
    (dir : Int) (contents : List Nat) :
    (env.conns.head? = none →
      upload_file env uuid filename dir contents
        = ⟨Except.error FrontError.notConnectedToAnyNode, [], []⟩) ∧
    (∀ nodeId comm, env.conns.head? = some (nodeId, comm) →
      ((upload_file env uuid filename dir contents).sentMessages
          = [(nodeId, Message.writeFile uuid contents)]) ∧
      (∀ e, comm (Message.writeFile uuid contents) = Except.error e →
        (upload_file env uuid filename dir contents).result
            = Except.error (FrontError.connectionError e) ∧
        (upload_file env uuid filename dir contents).insertedRows = []) ∧
      (∀ x, comm (Message.writeFile uuid contents) = Except.ok x → x ≠ Message.ack →
        (upload_file env uuid filename dir contents).result
            = Except.error (FrontError.unexpectedResponse x) ∧
        (upload_file env uuid filename dir contents).insertedRows = []) ∧
      (comm (Message.writeFile uuid contents) = Except.ok Message.ack →
        env.insertOk = true →
        (upload_file env uuid filename dir contents).result = Except.ok uuid ∧
        (upload_file env uuid filename dir contents).insertedRows
          = [⟨uuid, filename, dir, nodeId⟩]) ∧
      (comm (Message.writeFile uuid contents) = Except.ok Message.ack →
        env.insertOk = false →
        (upload_file env uuid filename dir contents).result
            = Except.error FrontError.databaseError ∧
        (upload_file env uuid filename dir contents).insertedRows = [])) := by
  constructor
  · intro hnone
    rw [upload_file, hnone]
  · intro nodeId comm hhead
    have hbody : ∀ r, comm (Message.writeFile uuid contents) = r →
        upload_file env uuid filename dir contents
          = match r with
            | .error e =>
              ⟨Except.error (FrontError.connectionError e), [],
                [(nodeId, Message.writeFile uuid contents)]⟩
            | .ok Message.ack =>
              if env.insertOk then
                ⟨Except.ok uuid, [⟨uuid, filename, dir, nodeId⟩],
                  [(nodeId, Message.writeFile uuid contents)]⟩
              else
                ⟨Except.error FrontError.databaseError, [],
                  [(nodeId, Message.writeFile uuid contents)]⟩
            | .ok x =>
              ⟨Except.error (FrontError.unexpectedResponse x), [],
                [(nodeId, Message.writeFile uuid contents)]⟩ := by
      intro r hr
      rw [upload_file, hhead]
      simp only []
      rw [hr]
    refine ⟨?_, ?_, ?_, ?_, ?_⟩
    · rcases hr : comm (Message.writeFile uuid contents) with e | x
      · rw [hbody _ hr]
      · rcases x with _ | _ | _ | _ | _ | _ | _ | _ <;> rw [hbody _ hr] <;>
          rcases henv : env.insertOk with _ | _ <;> simp [henv]
    · intro e hr
      rw [hbody _ hr]
      exact ⟨rfl, rfl⟩
    · intro x hr hx
      rw [hbody _ hr]
      rcases x with _ | _ | _ | _ | _ | _ | _ | _
      all_goals first
      | exact absurd rfl hx
      | exact ⟨rfl, rfl⟩
    · intro hr hins
      rw [hbody _ hr, hins]
      exact ⟨rfl, rfl⟩
    · intro hr hins
      rw [hbody _ hr, hins]
      exact ⟨rfl, rfl⟩

/-- Environment for the C7 witness: one node (id 4) that replies Ack, and
a database whose INSERT succeeds. -/
def c7env : UploadEnv := ⟨[(4, fun _ => Except.ok Message.ack)], true⟩

/-- Claim C7, witness: a concrete successful upload inserts exactly one
row carrying the generated UUID, and a concrete failing upload (empty
connection map) inserts nothing. -/
theorem c7_witness :
    (upload_file c7env 11 "x.txt".data 2 [5, 6]).result = Except.ok 11 ∧
    (upload_file c7env 11 "x.txt".data 2 [5, 6]).insertedRows
      = [⟨11, "x.txt".data, 2, 4⟩] ∧
    upload_file ⟨[], true⟩ 11 "x.txt".data 2 [5, 6]
      = ⟨Except.error FrontError.notConnectedToAnyNode, [], []⟩ := by
  obtain ⟨-, hsome⟩ := c7_upload_file c7env 11 "x.txt".data 2 [5, 6]
  obtain ⟨-, -, -, hack, -⟩ := hsome 4 (fun _ => Except.ok Message.ack) rfl
  obtain ⟨hres, hrows⟩ := hack rfl rfl
  have hnone := (c7_upload_file ⟨[], true⟩ 11 "x.txt".data 2 [5, 6]).1 rfl
  exact ⟨hres, hrows, hnone⟩

/-! ## Storage-node file locking (storage_node/mod.rs): claim C3 -/

/-- State of the storage node's locking machinery. `locked_files` models the
`RwLock<HashMap<Uuid, String>>` of locked UUIDs with their debugging reason
(as an association list), `holders` records the live `FileLock` values as
(task, uuid) pairs, and `unlock_notifies` counts calls to
`file_unlocked.notify_waiters()`. -/
structure LockState where
  locked_files : List (Nat × List Char)
  holders : List (Nat × Nat)
  unlock_notifies : Nat

/-- Keys of the locked-files table. -/
def lockedIds (l : List (Nat × List Char)) : List Nat := l.map Prod.fst

/-- Events on the locking machinery: `acquire t u reason` is the successful
exit of `lock_file` in task `t` (the branch where the key is absent; the
waiting branch leaves the state unchanged), and `release t u` is the body
spawned by `Drop for FileLock`. -/
inductive LockEv where
  | acquire (t u : Nat) (reason : List Char)
  | release (t u : Nat)

/-- Transition relation of the locking machinery, translated from
`lock_file` and `Drop for FileLock`: `lock_file` inserts its UUID only
after checking `!locked_files.contains_key(&uuid)` under the write lock and
then returns the `FileLock`; the drop handler removes the entry for its UUID
and calls `file_unlocked.notify_waiters()`. -/
inductive LockStep : LockState → LockEv → LockState → Prop where
  | acquire (s : LockState) (t u : Nat) (reason : List Char)
      (hfree : u ∉ lockedIds s.locked_files) :
      LockStep s (.acquire t u reason)
        ⟨(u, reason) :: s.locked_files, (t, u) :: s.holders, s.unlock_notifies⟩
  | release (s : LockState) (t u : Nat)
      (hheld : (t, u) ∈ s.holders) :
      LockStep s (.release t u)
        ⟨s.locked_files.eraseP (fun e => e.1 == u),
         s.holders.eraseP (fun e => e.1 == t && e.2 == u),
         s.unlock_notifies + 1⟩

/-- Initial state: no files locked, no live locks. -/
def initLock : LockState := ⟨[], [], 0⟩

/-- Reachable states of the locking machinery. -/
inductive LockReachable : LockState → Prop where
  | init : LockReachable initLock
  | step {s e s₂} : LockReachable s → LockStep s e s₂ → LockReachable s₂

/-- Removing the entry of a different key keeps a key in the table. -/
theorem mem_lockedIds_eraseP {u v : Nat} (hne : v ≠ u) :
    ∀ l : List (Nat × List Char), v ∈ lockedIds l →
      v ∈ lockedIds (l.eraseP (fun e => e.1 == u)) := by
  intro l
  induction l with
  | nil => intro hmem; simp [lockedIds] at hmem
  | cons a rest ih =>
    intro hmem
    have hmem2 : v = a.1 ∨ v ∈ lockedIds rest := by
      simpa [lockedIds] using hmem
    by_cases ha : a.1 = u
    · have hvt : v ∈ lockedIds rest := by
        rcases hmem2 with h | h
        · exact absurd (h.trans ha) hne
        · exact h
      simpa [List.eraseP_cons, ha] using hvt
    · rcases hmem2 with h | h
      · simp [List.eraseP_cons, ha, lockedIds, h]
      · have hr := ih h
        simp [List.eraseP_cons, ha, lockedIds] at hr ⊢
        exact Or.inr hr

/-- When a list has at most one pair with second component `u`, erasing the
pair `(t, u)` that it contains leaves no pair with second component `u`. -/
theorem filter_eraseP_self {t u : Nat} :
    ∀ l : List (Nat × Nat),
      (l.filter (fun e => e.2 == u)).length ≤ 1 → (t, u) ∈ l →
      ((l.eraseP (fun e => e.1 == t && e.2 == u)).filter
        (fun e => e.2 == u)) = [] := by
  intro l
  induction l with
  | nil => intro _ h; exact absurd h (List.not_mem_nil _)
  | cons a rest ih =>
    intro hlen hmem
    rcases a with ⟨a1, a2⟩
    by_cases ha : (a1, a2) = (t, u)
    · rw [ha]
      rw [ha] at hlen
      have hf : ((t, u) :: rest).filter (fun e => e.2 == u)
          = (t, u) :: rest.filter (fun e => e.2 == u) := by simp
      rw [hf, List.length_cons] at hlen
      have h0 : rest.filter (fun e => e.2 == u) = [] :=
        List.length_eq_zero.mp (by omega)
      have he : ((t, u) :: rest).eraseP (fun e => e.1 == t && e.2 == u)
          = rest := by simp [List.eraseP_cons]
      rw [he, h0]
    · have hmem2 : (t, u) ∈ rest := by
        rcases List.mem_cons.mp hmem with h | h
        · exact absurd h.symm ha
        · exact h
      have hane : ((a1, a2).1 == t && (a1, a2).2 == u) = false := by
        by_cases h1 : a1 = t
        · by_cases h2 : a2 = u
          · exact absurd (by rw [h1, h2]) ha
          · simp [h2]
        · simp [h1]
      have he : ((a1, a2) :: rest).eraseP (fun e => e.1 == t && e.2 == u)
          = (a1, a2) :: rest.eraseP (fun e => e.1 == t && e.2 == u) := by
        simp only [List.eraseP_cons, hane, cond_false]
      by_cases hau : a2 = u
      · have hf : ((a1, a2) :: rest).filter (fun e => e.2 == u)
            = (a1, a2) :: rest.filter (fun e => e.2 == u) := by simp [hau]
        rw [hf, List.length_cons] at hlen
        have h0 : rest.filter (fun e => e.2 == u) = [] :=
          List.length_eq_zero.mp (by omega)
        have hin : (t, u) ∈ rest.filter (fun e => e.2 == u) :=
          List.mem_filter.mpr ⟨hmem2, by simp⟩
        rw [h0] at hin
        exact absurd hin (List.not_mem_nil _)
      · have hf : ((a1, a2) :: rest).filter (fun e => e.2 == u)
            = rest.filter (fun e => e.2 == u) := by simp [hau]
        rw [hf] at hlen
        rw [he]
        have hf2 : ((a1, a2) :: rest.eraseP (fun e => e.1 == t && e.2 == u)).filter
              (fun e => e.2 == u)
            = (rest.eraseP (fun e => e.1 == t && e.2 == u)).filter
              (fun e => e.2 == u) := by simp [hau]
        rw [hf2]
        exact ih hlen hmem2

/-- Elements of a list of length at most one are equal. -/
theorem eq_of_mem_of_length_le_one {α : Type} {l : List α} {x y : α}
    (hl : l.length ≤ 1) (hx : x ∈ l) (hy : y ∈ l) : x = y := by
  match l, hl, hx, hy with
  | [], _, hx, _ => exact absurd hx (List.not_mem_nil _)
  | [a], _, hx, hy =>
    rw [List.mem_singleton] at hx hy
    rw [hx, hy]
  | a :: b :: rest, hl, _, _ =>
    rw [List.length_cons, List.length_cons] at hl
    omega

/-- Invariant of the locking machinery: per UUID at most one live lock, and
every live lock's UUID is present in the locked-files table. -/
def lockInv (s : LockState) : Prop :=
  (∀ u : Nat, (s.holders.filter (fun e => e.2 == u)).length ≤ 1) ∧
  (∀ t u : Nat, (t, u) ∈ s.holders → u ∈ lockedIds s.locked_files)

/-- Every step of the locking machinery preserves the invariant. -/
theorem lockInv_step {s s₂ : LockState} {e : LockEv}
    (hstep : LockStep s e s₂) (ih : lockInv s) : lockInv s₂ := by
  obtain ⟨ihcount, ihcouple⟩ := ih
  cases hstep with
  | acquire t u reason hfree =>
    have hnone : s.holders.filter (fun e => e.2 == u) = [] := by
      rw [List.filter_eq_nil_iff]
      rintro ⟨t₂, u₂⟩ he hb
      have hu : u₂ = u := by simpa using hb
      rw [hu] at he
      exact hfree (ihcouple t₂ u he)
    constructor
    · intro v
      by_cases hv : u = v
      · rw [← hv]
        show (((t, u) :: s.holders).filter (fun e => e.2 == u)).length ≤ 1
        have hf : ((t, u) :: s.holders).filter (fun e => e.2 == u)
            = (t, u) :: s.holders.filter (fun e => e.2 == u) := by simp
        rw [hf, hnone]
        simp
      · show (((t, u) :: s.holders).filter (fun e => e.2 == v)).length ≤ 1
        have hf : ((t, u) :: s.holders).filter (fun e => e.2 == v)
            = s.holders.filter (fun e => e.2 == v) := by simp [hv]
        rw [hf]
        exact ihcount v
    · intro t₂ u₂ hmem
      show u₂ ∈ lockedIds ((u, reason) :: s.locked_files)
      rcases List.mem_cons.mp hmem with h | h
      · have : u₂ = u := congrArg Prod.snd h
        simp [lockedIds, this]
      · have := ihcouple t₂ u₂ h
        simp only [lockedIds, List.map_cons, List.mem_cons]
        exact Or.inr this
  | release t u hheld =>
    constructor
    · intro v
      have hsub : List.Sublist
          ((s.holders.eraseP (fun e => e.1 == t && e.2 == u)).filter
            (fun e => e.2 == v))
          (s.holders.filter (fun e => e.2 == v)) :=
        (List.eraseP_sublist s.holders).filter _
      exact le_trans hsub.length_le (ihcount v)
    · intro t₂ u₂ hmem
      have hmem0 : (t₂, u₂) ∈ s.holders := List.mem_of_mem_eraseP hmem
      by_cases hu : u₂ = u
      · have h0 := filter_eraseP_self s.holders (ihcount u) hheld
        have hin : (t₂, u₂) ∈ (s.holders.eraseP
            (fun e => e.1 == t && e.2 == u)).filter (fun e => e.2 == u) :=
          List.mem_filter.mpr ⟨hmem, by simp [hu]⟩
        rw [h0] at hin
        exact absurd hin (List.not_mem_nil _)
      · exact mem_lockedIds_eraseP hu _ (ihcouple t₂ u₂ hmem0)

/-- Claim C3: in every reachable state of the storage node's locking
machinery there is at most one live FileLock per UUID: lock_file inserts
its UUID only while absent, each holder's UUID is present in the
locked-files table, and two holders of the same UUID coincide. -/
theorem c3_file_lock_exclusive (s : LockState) (h : LockReachable s) :
    (∀ u : Nat, (s.holders.filter (fun e => e.2 == u)).length ≤ 1) ∧
    (∀ t u : Nat, (t, u) ∈ s.holders → u ∈ lockedIds s.locked_files) ∧
    (∀ t₁ t₂ u : Nat, (t₁, u) ∈ s.holders → (t₂, u) ∈ s.holders → t₁ = t₂) := by
  have hinv : lockInv s := by
    induction h with
    | init =>
      constructor
      · intro u; simp [initLock]
      · intro t u hmem; exact absurd hmem (List.not_mem_nil _)
    | step hprev hstep ih => exact lockInv_step hstep ih
  obtain ⟨hcount, hcouple⟩ := hinv
  refine ⟨hcount, hcouple, ?_⟩
  intro t₁ t₂ u h1 h2
  have hx : (t₁, u) ∈ s.holders.filter (fun e => e.2 == u) :=
    List.mem_filter.mpr ⟨h1, by simp⟩
  have hy : (t₂, u) ∈ s.holders.filter (fun e => e.2 == u) :=
    List.mem_filter.mpr ⟨h2, by simp⟩
  have := eq_of_mem_of_length_le_one (hcount u) hx hy
  exact congrArg Prod.fst this

/-- State for the C3 witness: task 0 holds the lock on UUID 5. -/
def c3state : LockState := ⟨[(5, "read".data)], [(0, 5)], 0⟩

/-- Claim C3, witness: in the concrete reachable state where task 0 holds
the lock on UUID 5, the filter count is at most one and the UUID is in the
locked-files table. -/
theorem c3_witness :
    (c3state.holders.filter (fun e => e.2 == 5)).length ≤ 1 ∧
    5 ∈ lockedIds c3state.locked_files := by
  have hreach : LockReachable c3state :=
    LockReachable.step LockReachable.init
      (LockStep.acquire initLock 0 5 "read".data (by simp [initLock, lockedIds]))
  obtain ⟨hcount, hcouple, -⟩ := c3_file_lock_exclusive c3state hreach
  exact ⟨hcount 5, hcouple 0 5 (by simp [c3state])⟩

/-! ## Storage-node connection message correlation
(front_node/storage_node_connection.rs): claims C1 and C4 -/

/-- Outcome observed by one communicate caller: either the response message
delivered through its one-shot channel, or ClientDisconnected (its one-shot
sender was dropped, or writing the request to the stream failed). -/
inductive LinkOutcome where
  | received (m : Message)
  | clientDisconnected

/-- State of one storage-node link. `next` is `next_message_id`, `pending`
is the `waiting_responses` table as (message id, caller) pairs, `commed`
records which caller allocated which request id, `outcomes` the outcome
each caller has observed, `disconnected` the `is_disconnected` flag, and
`notifies` counts `disconnect.notify_waiters()` calls. -/
structure LinkState where
  next : Nat
  pending : List (Nat × Nat)
  commed : List (Nat × Nat)
  outcomes : List (Nat × LinkOutcome)
  disconnected : Bool
  notifies : Nat

/-- Keys of an association list. -/
def keysOf {α : Type} (l : List (Nat × α)) : List Nat := l.map Prod.fst

/-- First-match lookup in an association list, as `HashMap` lookup on a
table whose keys are unique. -/
def findVal {α : Type} (l : List (Nat × α)) (k : Nat) : Option α :=
  (l.find? (fun e => e.1 == k)).map Prod.snd

/-- Record an outcome for a caller unless one is already recorded; a
caller awaits its one-shot only once, so only the first resolution is
observable. -/
def setOutcomeIfNone (l : List (Nat × LinkOutcome)) (c : Nat)
    (o : LinkOutcome) : List (Nat × LinkOutcome) :=
  if (findVal l c).isSome then l else (c, o) :: l

/-- Outcomes after the receive task dies: `waiting_responses.drain()` drops
every pending sender, so every pending caller without an outcome observes
ClientDisconnected. -/
def drainOutcomes (outs : List (Nat × LinkOutcome))
    (pend : List (Nat × Nat)) : List (Nat × LinkOutcome) :=
  pend.foldl (fun acc e => setOutcomeIfNone acc e.2 .clientDisconnected) outs

/-- Outcomes after `waiting_responses.insert(id, sender)` displaces the
previous entry under `id`: the displaced sender is dropped, so its caller
observes ClientDisconnected unless it already has an outcome. -/
def displacedOutcomes (outs : List (Nat × LinkOutcome))
    (pend : List (Nat × Nat)) (id : Nat) : List (Nat × LinkOutcome) :=
  drainOutcomes outs (pend.filter (fun e => e.1 == id))

/-- Outcomes produced by one communicate call: the displaced entry's caller
observes ClientDisconnected, and when `write_message` fails the calling
task itself returns ClientDisconnected (its entry stays in the table). -/
def commOutcomes (s : LinkState) (c : Nat) (ok : Bool) :
    List (Nat × LinkOutcome) :=
  if ok then displacedOutcomes s.outcomes s.pending s.next
  else setOutcomeIfNone (displacedOutcomes s.outcomes s.pending s.next) c
    .clientDisconnected

/-- Search performed by communicate's inner while loop: starting from `x`,
step `next_message_id` by `wrapping_add(1)` until a value outside the
pending table is found, and return that final value of `next_message_id`.
The fuel bounds the number of candidates; exhausting it models the loop
spinning forever. -/
def skipLoop (ids : List Nat) : Nat → Nat → Option Nat
  | _, 0 => none
  | x, fuel + 1 =>
    if (x + 1) % 4294967296 ∈ ids then skipLoop ids ((x + 1) % 4294967296) fuel
    else some ((x + 1) % 4294967296)

/-- Events on one storage-node link: a communicate call by caller `c`
that allocated request id `id` (with `sendOk` telling whether
`write_message` succeeded), the receive task delivering a parsed response
to a waiting sender, the receive task dropping a response whose id has no
waiter, and the receive task hitting a parse error. -/
inductive LinkEv where
  | comm (c id : Nat) (sendOk : Bool)
  | deliver (id : Nat) (m : Message)
  | deliverDrop (id : Nat) (m : Message)
  | recvFail

/-- Transition relation of one storage-node link, translated from
`communicate` and the receive task. `communicate` takes `id :=
next_message_id`, advances `next_message_id` with `wrapping_add(1)` until
it leaves the pending table (before inserting!), then inserts its sender
under `id` (displacing any previous entry) and writes the request; the
receive task removes the waiting sender for a parsed response id and sends
the message to it, ignores responses with no waiter, and on a parse error
notifies `disconnect`, sets `is_disconnected` and drains the table. -/
inductive LinkStep : LinkState → LinkEv → LinkState → Prop where
  | comm (s : LinkState) (c n2 : Nat) (ok : Bool)
      (hfresh : c ∉ keysOf s.commed)
      (hskip : skipLoop (keysOf s.pending) s.next 4294967296 = some n2) :
      LinkStep s (.comm c s.next ok)
        ⟨n2,
         (s.next, c) :: s.pending.eraseP (fun e => e.1 == s.next),
         (c, s.next) :: s.commed,
         commOutcomes s c ok,
         s.disconnected, s.notifies⟩
  | deliver (s : LinkState) (id c : Nat) (m : Message)
      (hconn : s.disconnected = false)
      (hfind : findVal s.pending id = some c) :
      LinkStep s (.deliver id m)
        ⟨s.next, s.pending.eraseP (fun e => e.1 == id), s.commed,
         setOutcomeIfNone s.outcomes c (.received m),
         s.disconnected, s.notifies⟩
  | deliverDrop (s : LinkState) (id : Nat) (m : Message)
      (hconn : s.disconnected = false)
      (hmiss : findVal s.pending id = none) :
      LinkStep s (.deliverDrop id m) s
  | recvFail (s : LinkState)
      (hconn : s.disconnected = false) :
      LinkStep s .recvFail
        ⟨s.next, [], s.commed, drainOutcomes s.outcomes s.pending, true,
         s.notifies + 1⟩

/-- Initial link state, as built by `connect`. -/
def initLink : LinkState := ⟨0, [], [], [], false, 0⟩

/-- Reachability for one link with its event trace, under a guard `g` that
restricts the states in which communicate calls may start (taking `g` to
be trivially true yields the unrestricted system). -/
inductive LinkReach (g : LinkState → Prop) : LinkState → List LinkEv → Prop where
  | init : LinkReach g initLink []
  | stepComm {s tr s₂ c id ok} (h : LinkReach g s tr)
      (hstep : LinkStep s (.comm c id ok) s₂) (hg : g s) :
      LinkReach g s₂ (tr ++ [LinkEv.comm c id ok])
  | stepOther {s tr s₂ e} (h : LinkReach g s tr)
      (hstep : LinkStep s e s₂)
      (hnc : ∀ c id ok, e ≠ LinkEv.comm c id ok) :
      LinkReach g s₂ (tr ++ [e])

/-- Smart constructor for comm steps up to equality of the target state. -/
theorem commStep (s : LinkState) (c n2 : Nat) (ok : Bool) (s₂ : LinkState)
    (hfresh : c ∉ keysOf s.commed)
    (hskip : skipLoop (keysOf s.pending) s.next 4294967296 = some n2)
    (heq : s₂ = ⟨n2, (s.next, c) :: s.pending.eraseP (fun e => e.1 == s.next),
      (c, s.next) :: s.commed, commOutcomes s c ok,
      s.disconnected, s.notifies⟩) :
    LinkStep s (.comm c s.next ok) s₂ := by
  rw [heq]
  exact LinkStep.comm s c n2 ok hfresh hskip

/-- Smart constructor for deliver steps up to equality of the target
state. -/
theorem deliverStep (s : LinkState) (id c : Nat) (m : Message) (s₂ : LinkState)
    (hconn : s.disconnected = false)
    (hfind : findVal s.pending id = some c)
    (heq : s₂ = ⟨s.next, s.pending.eraseP (fun e => e.1 == id), s.commed,
      setOutcomeIfNone s.outcomes c (.received m),
      s.disconnected, s.notifies⟩) :
    LinkStep s (.deliver id m) s₂ := by
  rw [heq]
  exact LinkStep.deliver s id c m hconn hfind

/-- Lookup at the head key of an association list. -/
theorem findVal_cons_self {α : Type} (l : List (Nat × α)) (k : Nat) (v : α) :
    findVal ((k, v) :: l) k = some v := by
  rw [findVal, List.find?_cons_of_pos _ (by simp)]
  rfl

/-- Lookup at another key skips the head of an association list. -/
theorem findVal_cons_ne {α : Type} (l : List (Nat × α)) {k k2 : Nat} (v : α)
    (h : k2 ≠ k) : findVal ((k, v) :: l) k2 = findVal l k2 := by
  rw [findVal, findVal, List.find?_cons_of_neg _ (by simp [Ne.symm h])]

/-- A successful lookup exhibits a member of the association list. -/
theorem findVal_mem {α : Type} {l : List (Nat × α)} {k : Nat} {v : α}
    (h : findVal l k = some v) : (k, v) ∈ l := by
  rw [findVal] at h
  obtain ⟨e, hfind, hsnd⟩ := Option.map_eq_some'.mp h
  have hmem := List.mem_of_find?_eq_some hfind
  have hkey : e.1 = k := by simpa using List.find?_some hfind
  have : (k, v) = e := by
    rcases e with ⟨e1, e2⟩
    simp only at hkey hsnd
    rw [hkey, hsnd]
  rw [this]
  exact hmem

/-- A successful lookup means the key occurs in the list. -/
theorem findVal_mem_keys {α : Type} {l : List (Nat × α)} {k : Nat} {v : α}
    (h : findVal l k = some v) : k ∈ keysOf l :=
  List.mem_map_of_mem Prod.fst (findVal_mem h)

/-- Keys of an erased association list form a sublist of the keys. -/
theorem keysOf_eraseP_sublist {α : Type} (l : List (Nat × α))
    (p : Nat × α → Bool) :
    List.Sublist (keysOf (l.eraseP p)) (keysOf l) :=
  (List.eraseP_sublist l).map Prod.fst

/-- Erasing a key from an association list with unique keys removes it. -/
theorem not_mem_keysOf_eraseP {α : Type} {l : List (Nat × α)} {k : Nat}
    (h : (keysOf l).Nodup) :
    k ∉ keysOf (l.eraseP (fun e => e.1 == k)) := by
  induction l with
  | nil => simp [keysOf]
  | cons a rest ih =>
    have hnd : (keysOf rest).Nodup ∧ a.1 ∉ keysOf rest := by
      have := h
      rw [keysOf, List.map_cons, List.nodup_cons] at this
      exact ⟨this.2, this.1⟩
    by_cases ha : a.1 = k
    · have he : (a :: rest).eraseP (fun e => e.1 == k) = rest := by
        simp [List.eraseP_cons, ha]
      rw [he, ← ha]
      exact hnd.2
    · have he : (a :: rest).eraseP (fun e => e.1 == k)
          = a :: rest.eraseP (fun e => e.1 == k) := by
        simp [List.eraseP_cons, ha]
      rw [he, keysOf, List.map_cons]
      intro hmem
      rcases List.mem_cons.mp hmem with hk | hk
      · exact ha hk.symm
      · exact ih hnd.1 hk

/-- Erasing an absent key is a no-op. -/
theorem eraseP_key_of_not_mem {α : Type} {l : List (Nat × α)} {k : Nat}
    (h : k ∉ keysOf l) : l.eraseP (fun e => e.1 == k) = l := by
  induction l with
  | nil => rfl
  | cons a rest ih =>
    have hsplit : k ≠ a.1 ∧ k ∉ keysOf rest := by
      rw [keysOf, List.map_cons] at h
      exact ⟨fun hk => h (hk ▸ List.mem_cons_self _ _),
        fun hk => h (List.mem_cons_of_mem _ hk)⟩
    have hc : (a.1 == k) = false := beq_eq_false_iff_ne.mpr (Ne.symm hsplit.1)
    rw [List.eraseP_cons, hc, cond_false, ih hsplit.2]

/-- Filtering for an absent key yields nothing. -/
theorem filter_key_of_not_mem {α : Type} {l : List (Nat × α)} {k : Nat}
    (h : k ∉ keysOf l) : l.filter (fun e => e.1 == k) = [] := by
  rw [List.filter_eq_nil_iff]
  intro e he hb
  have : e.1 = k := by simpa using hb
  exact h (this ▸ List.mem_map_of_mem Prod.fst he)

/-- Recorded outcomes are stable under setOutcomeIfNone. -/
theorem lookup_setIfNone_stable {l : List (Nat × LinkOutcome)} {c : Nat}
    {o : LinkOutcome} (cset : Nat) (v : LinkOutcome)
    (h : findVal l c = some o) :
    findVal (setOutcomeIfNone l cset v) c = some o := by
  rw [setOutcomeIfNone]
  by_cases hs : (findVal l cset).isSome
  · rw [if_pos hs]; exact h
  · rw [if_neg hs]
    by_cases hc : c = cset
    · rw [hc] at h
      rw [h] at hs
      exact absurd rfl hs
    · rw [findVal_cons_ne _ _ hc]
      exact h

/-- An outcome read after setOutcomeIfNone is the set value or an old one. -/
theorem lookup_setIfNone_cases {l : List (Nat × LinkOutcome)} {c cset : Nat}
    {o v : LinkOutcome}
    (h : findVal (setOutcomeIfNone l cset v) c = some o) :
    o = v ∨ findVal l c = some o := by
  rw [setOutcomeIfNone] at h
  by_cases hs : (findVal l cset).isSome
  · rw [if_pos hs] at h; exact Or.inr h
  · rw [if_neg hs] at h
    by_cases hc : c = cset
    · rw [hc, findVal_cons_self] at h
      exact Or.inl (Option.some.inj h).symm
    · rw [findVal_cons_ne _ _ hc] at h
      exact Or.inr h

/-- Setting an outcome for a caller that has none records it. -/
theorem lookup_setIfNone_self_none {l : List (Nat × LinkOutcome)} {c : Nat}
    (o : LinkOutcome) (h : findVal l c = none) :
    findVal (setOutcomeIfNone l c o) c = some o := by
  rw [setOutcomeIfNone, h]
  rw [if_neg (by simp)]
  exact findVal_cons_self _ _ _

/-- setOutcomeIfNone leaves other callers' outcomes unchanged. -/
theorem lookup_setIfNone_ne {l : List (Nat × LinkOutcome)} {c cset : Nat}
    (o : LinkOutcome) (h : c ≠ cset) :
    findVal (setOutcomeIfNone l cset o) c = findVal l c := by
  rw [setOutcomeIfNone]
  by_cases hs : (findVal l cset).isSome
  · rw [if_pos hs]
  · rw [if_neg hs]
    exact findVal_cons_ne _ _ h

/-- Recorded outcomes are stable under draining. -/
theorem drain_stable {pend : List (Nat × Nat)} :
    ∀ {outs : List (Nat × LinkOutcome)} {c : Nat} {o : LinkOutcome},
      findVal outs c = some o → findVal (drainOutcomes outs pend) c = some o := by
  induction pend with
  | nil => intro outs c o h; exact h
  | cons a rest ih =>
    intro outs c o h
    rw [drainOutcomes, List.foldl_cons]
    exact ih (lookup_setIfNone_stable _ _ h)

/-- An outcome read after draining is ClientDisconnected or an old one. -/
theorem drain_cases {pend : List (Nat × Nat)} :
    ∀ {outs : List (Nat × LinkOutcome)} {c : Nat} {o : LinkOutcome},
      findVal (drainOutcomes outs pend) c = some o →
      o = LinkOutcome.clientDisconnected ∨ findVal outs c = some o := by
  induction pend with
  | nil => intro outs c o h; exact Or.inr h
  | cons a rest ih =>
    intro outs c o h
    rw [drainOutcomes, List.foldl_cons] at h
    rcases ih h with h2 | h2
    · exact Or.inl h2
    · rcases lookup_setIfNone_cases h2 with h3 | h3
      · exact Or.inl h3
      · exact Or.inr h3

/-- An outcome read after draining existed before or belongs to a drained
caller. -/
theorem drain_keys {pend : List (Nat × Nat)} :
    ∀ {outs : List (Nat × LinkOutcome)} {c : Nat} {o : LinkOutcome},
      findVal (drainOutcomes outs pend) c = some o →
      findVal outs c = some o ∨ c ∈ pend.map Prod.snd := by
  induction pend with
  | nil => intro outs c o h; exact Or.inl h
  | cons a rest ih =>
    intro outs c o h
    rw [drainOutcomes, List.foldl_cons] at h
    rcases ih h with h2 | h2
    · by_cases hc : c = a.2
      · exact Or.inr (by rw [List.map_cons]; exact hc ▸ List.mem_cons_self _ _)
      · rw [lookup_setIfNone_ne _ hc] at h2
        exact Or.inl h2
    · exact Or.inr (by rw [List.map_cons]; exact List.mem_cons_of_mem _ h2)

/-- Draining records ClientDisconnected for every drained caller whose
outcome was absent or already ClientDisconnected. -/
theorem drain_sets {pend : List (Nat × Nat)} :
    ∀ {outs : List (Nat × LinkOutcome)} {c id : Nat},
      (id, c) ∈ pend →
      (findVal outs c = none ∨
        findVal outs c = some LinkOutcome.clientDisconnected) →
      findVal (drainOutcomes outs pend) c
        = some LinkOutcome.clientDisconnected := by
  induction pend with
  | nil => intro outs c id h _; exact absurd h (List.not_mem_nil _)
  | cons a rest ih =>
    intro outs c id hmem hout
    rw [drainOutcomes, List.foldl_cons]
    by_cases hc : c = a.2
    · have hset : findVal (setOutcomeIfNone outs a.2 .clientDisconnected) c
          = some LinkOutcome.clientDisconnected := by
        rcases hout with h | h
        · rw [hc]
          rw [hc] at h
          exact lookup_setIfNone_self_none _ h
        · exact lookup_setIfNone_stable _ _ h
      exact drain_stable hset
    · have hmem2 : (id, c) ∈ rest := by
        rcases List.mem_cons.mp hmem with h | h
        · exact absurd (congrArg Prod.snd h) hc
        · exact h
      have hout2 : findVal (setOutcomeIfNone outs a.2 .clientDisconnected) c
            = none ∨
          findVal (setOutcomeIfNone outs a.2 .clientDisconnected) c
            = some LinkOutcome.clientDisconnected := by
        rw [lookup_setIfNone_ne _ hc]
        exact hout
      exact ih hmem2 hout2

/-- An outcome read after a comm step is ClientDisconnected or an old one. -/
theorem commOutcomes_cases {s : LinkState} {c : Nat} {ok : Bool} {c0 : Nat}
    {o : LinkOutcome} (h : findVal (commOutcomes s c ok) c0 = some o) :
    o = LinkOutcome.clientDisconnected ∨ findVal s.outcomes c0 = some o := by
  rw [commOutcomes] at h
  cases ok with
  | true =>
    rw [if_pos rfl] at h
    exact drain_cases h
  | false =>
    rw [if_neg (by simp)] at h
    rcases lookup_setIfNone_cases h with h2 | h2
    · exact Or.inl h2
    · exact drain_cases h2

/-- An outcome read after a comm step belongs to the calling task, existed
before, or belongs to a caller that was pending. -/
theorem commOutcomes_keys {s : LinkState} {c : Nat} {ok : Bool} {c0 : Nat}
    {o : LinkOutcome} (h : findVal (commOutcomes s c ok) c0 = some o) :
    c0 = c ∨ findVal s.outcomes c0 = some o ∨ c0 ∈ s.pending.map Prod.snd := by
  have hfiltmap : c0 ∈ (s.pending.filter (fun e => e.1 == s.next)).map Prod.snd →
      c0 ∈ s.pending.map Prod.snd := by
    intro hm
    obtain ⟨e, he, hsnd⟩ := List.mem_map.mp hm
    exact List.mem_map.mpr ⟨e, List.mem_of_mem_filter he, hsnd⟩
  rw [commOutcomes] at h
  cases ok with
  | true =>
    rw [if_pos rfl] at h
    rcases drain_keys h with h2 | h2
    · exact Or.inr (Or.inl h2)
    · exact Or.inr (Or.inr (hfiltmap h2))
  | false =>
    rw [if_neg (by simp)] at h
    by_cases hc : c0 = c
    · exact Or.inl hc
    · rw [lookup_setIfNone_ne _ hc] at h
      rcases drain_keys h with h2 | h2
      · exact Or.inr (Or.inl h2)
      · exact Or.inr (Or.inr (hfiltmap h2))

/-- The calling task's own outcome after a comm step is absent or
ClientDisconnected, provided it had none before. -/
theorem commOutcomes_self {s : LinkState} {c : Nat} {ok : Bool}
    (h : findVal s.outcomes c = none) :
    findVal (commOutcomes s c ok) c = none ∨
    findVal (commOutcomes s c ok) c = some LinkOutcome.clientDisconnected := by
  cases hq : findVal (commOutcomes s c ok) c with
  | none => exact Or.inl rfl
  | some o =>
    rcases commOutcomes_cases hq with h2 | h2
    · exact Or.inr (by rw [h2])
    · rw [h] at h2
      exact absurd h2 (by simp)

/-- Inductive invariant of one link relative to its trace: (a) a received
outcome is correlated with a deliver event under the caller's own id, (b)
every pending entry's caller allocated exactly that id, (c) pending
callers have no outcome yet or ClientDisconnected, (d) outcomes belong to
callers that have communicated, (e) pending ids are unique, (f) the
disconnected flag marks exactly the traces with a receive failure, and (g)
the disconnect notification fired exactly once iff disconnected. -/
def linkInv (s : LinkState) (tr : List LinkEv) : Prop :=
  (∀ c m, findVal s.outcomes c = some (LinkOutcome.received m) →
    ∃ id, findVal s.commed c = some id ∧ LinkEv.deliver id m ∈ tr) ∧
  (∀ id c, (id, c) ∈ s.pending → findVal s.commed c = some id) ∧
  (∀ id c, (id, c) ∈ s.pending →
    findVal s.outcomes c = none ∨
    findVal s.outcomes c = some LinkOutcome.clientDisconnected) ∧
  (∀ c o, findVal s.outcomes c = some o → c ∈ keysOf s.commed) ∧
  (keysOf s.pending).Nodup ∧
  (s.disconnected = true ↔ LinkEv.recvFail ∈ tr) ∧
  (s.notifies = if s.disconnected then 1 else 0)

/-- Every link step preserves the invariant. -/
theorem linkInv_step {s s₂ : LinkState} {e : LinkEv} {tr : List LinkEv}
    (hstep : LinkStep s e s₂) (ih : linkInv s tr) : linkInv s₂ (tr ++ [e]) := by
  obtain ⟨ihA, ihPC, ihPO, ihOC, ihND, ihFlag, ihNot⟩ := ih
  cases hstep with
  | comm c n2 ok hfresh hskip =>
    refine ⟨?_, ?_, ?_, ?_, ?_, ?_, ?_⟩
    · show ∀ c0 m, findVal (commOutcomes s c ok) c0
          = some (LinkOutcome.received m) →
        ∃ id, findVal ((c, s.next) :: s.commed) c0 = some id ∧
          LinkEv.deliver id m ∈ tr ++ [LinkEv.comm c s.next ok]
      intro c0 m h
      rcases commOutcomes_cases h with h2 | h2
      · exact absurd h2 (by simp)
      · obtain ⟨id0, hcom, htr⟩ := ihA c0 m h2
        have hc0 : c0 ≠ c := by
          intro hc
          rw [hc] at h2
          exact hfresh (ihOC c _ h2)
        refine ⟨id0, ?_, List.mem_append_left _ htr⟩
        rw [findVal_cons_ne _ _ hc0]
        exact hcom
    · show ∀ id0 c0,
        (id0, c0) ∈ (s.next, c) :: s.pending.eraseP (fun e => e.1 == s.next) →
        findVal ((c, s.next) :: s.commed) c0 = some id0
      intro id0 c0 hmem
      rcases List.mem_cons.mp hmem with h | h
      · have h1 : id0 = s.next := congrArg Prod.fst h
        have h2 : c0 = c := congrArg Prod.snd h
        rw [h1, h2, findVal_cons_self]
      · have hmem0 : (id0, c0) ∈ s.pending := List.mem_of_mem_eraseP h
        have hcom := ihPC id0 c0 hmem0
        have hc0 : c0 ≠ c := fun hc => hfresh (hc ▸ findVal_mem_keys hcom)
        rw [findVal_cons_ne _ _ hc0]
        exact hcom
    · show ∀ id0 c0,
        (id0, c0) ∈ (s.next, c) :: s.pending.eraseP (fun e => e.1 == s.next) →
        findVal (commOutcomes s c ok) c0 = none ∨
        findVal (commOutcomes s c ok) c0 = some LinkOutcome.clientDisconnected
      intro id0 c0 hmem
      rcases List.mem_cons.mp hmem with h | h
      · have h2 : c0 = c := congrArg Prod.snd h
        have hnone : findVal s.outcomes c = none := by
          cases hq : findVal s.outcomes c with
          | none => rfl
          | some o => exact absurd (ihOC c o hq) hfresh
        rw [h2]
        exact commOutcomes_self hnone
      · have hmem0 : (id0, c0) ∈ s.pending := List.mem_of_mem_eraseP h
        cases hq : findVal (commOutcomes s c ok) c0 with
        | none => exact Or.inl rfl
        | some o =>
          rcases commOutcomes_cases hq with h2 | h2
          · exact Or.inr (by rw [h2])
          · rcases ihPO id0 c0 hmem0 with h3 | h3
            · rw [h3] at h2
              exact absurd h2 (by simp)
            · rw [h3] at h2
              have ho : o = LinkOutcome.clientDisconnected :=
                (Option.some.inj h2).symm
              exact Or.inr (by rw [ho])
    · show ∀ c0 o, findVal (commOutcomes s c ok) c0 = some o →
        c0 ∈ keysOf ((c, s.next) :: s.commed)
      intro c0 o h
      rw [keysOf, List.map_cons]
      rcases commOutcomes_keys h with h2 | h2 | h2
      · rw [h2]
        exact List.mem_cons_self _ _
      · exact List.mem_cons_of_mem _ (ihOC c0 o h2)
      · obtain ⟨e2, he2, hsnd⟩ := List.mem_map.mp h2
        have hfv := ihPC e2.1 e2.2 (by rw [Prod.mk.eta]; exact he2)
        rw [hsnd] at hfv
        exact List.mem_cons_of_mem _ (findVal_mem_keys hfv)
    · show (keysOf
          ((s.next, c) :: s.pending.eraseP (fun e => e.1 == s.next))).Nodup
      rw [keysOf, List.map_cons, List.nodup_cons]
      exact ⟨not_mem_keysOf_eraseP ihND,
        (keysOf_eraseP_sublist _ _).nodup ihND⟩
    · show s.disconnected = true ↔
        LinkEv.recvFail ∈ tr ++ [LinkEv.comm c s.next ok]
      rw [List.mem_append, List.mem_singleton]
      constructor
      · intro hd
        exact Or.inl (ihFlag.mp hd)
      · rintro (h | h)
        · exact ihFlag.mpr h
        · exact absurd h (by simp)
    · show s.notifies = if s.disconnected then 1 else 0
      exact ihNot
  | deliver id c m hconn hfind =>
    have hpmem : (id, c) ∈ s.pending := findVal_mem hfind
    refine ⟨?_, ?_, ?_, ?_, ?_, ?_, ?_⟩
    · show ∀ c0 m0,
        findVal (setOutcomeIfNone s.outcomes c (LinkOutcome.received m)) c0
          = some (LinkOutcome.received m0) →
        ∃ id0, findVal s.commed c0 = some id0 ∧
          LinkEv.deliver id0 m0 ∈ tr ++ [LinkEv.deliver id m]
      intro c0 m0 h
      by_cases hc : c0 = c
      · rw [hc] at h
        cases hq : findVal s.outcomes c with
        | none =>
          rw [lookup_setIfNone_self_none _ hq] at h
          have hm : m = m0 := LinkOutcome.received.inj (Option.some.inj h)
          refine ⟨id, ?_, ?_⟩
          · rw [hc]
            exact ihPC id c hpmem
          · refine List.mem_append_right _ ?_
            rw [← hm]
            exact List.mem_singleton_self _
        | some o =>
          rw [lookup_setIfNone_stable _ _ hq] at h
          have ho : o = LinkOutcome.received m0 := Option.some.inj h
          rw [ho] at hq
          obtain ⟨id0, hcom, htr⟩ := ihA c m0 hq
          exact ⟨id0, by rw [hc]; exact hcom, List.mem_append_left _ htr⟩
      · rw [lookup_setIfNone_ne _ hc] at h
        obtain ⟨id0, hcom, htr⟩ := ihA c0 m0 h
        exact ⟨id0, hcom, List.mem_append_left _ htr⟩
    · show ∀ id0 c0, (id0, c0) ∈ s.pending.eraseP (fun e => e.1 == id) →
        findVal s.commed c0 = some id0
      intro id0 c0 hmem
      exact ihPC id0 c0 (List.mem_of_mem_eraseP hmem)
    · show ∀ id0 c0, (id0, c0) ∈ s.pending.eraseP (fun e => e.1 == id) →
        findVal (setOutcomeIfNone s.outcomes c (LinkOutcome.received m)) c0
          = none ∨
        findVal (setOutcomeIfNone s.outcomes c (LinkOutcome.received m)) c0
          = some LinkOutcome.clientDisconnected
      intro id0 c0 hmem
      have hmem0 : (id0, c0) ∈ s.pending := List.mem_of_mem_eraseP hmem
      have hc0 : c0 ≠ c := by
        intro hc
        have h1 := ihPC id0 c0 hmem0
        have h2 := ihPC id c hpmem
        rw [hc] at h1
        rw [h1] at h2
        have hid : id0 = id := Option.some.inj h2
        have hkey : id ∈ keysOf (s.pending.eraseP (fun e => e.1 == id)) := by
          have hmem2 : (id0, c0) ∈ s.pending.eraseP (fun e => e.1 == id) := hmem
          rw [hid] at hmem2
          exact List.mem_map_of_mem Prod.fst hmem2
        exact not_mem_keysOf_eraseP ihND hkey
      rw [lookup_setIfNone_ne _ hc0]
      exact ihPO id0 c0 hmem0
    · show ∀ c0 o,
        findVal (setOutcomeIfNone s.outcomes c (LinkOutcome.received m)) c0
          = some o → c0 ∈ keysOf s.commed
      intro c0 o h
      by_cases hc : c0 = c
      · rw [hc]
        exact findVal_mem_keys (ihPC id c hpmem)
      · rw [lookup_setIfNone_ne _ hc] at h
        exact ihOC c0 o h
    · show (keysOf (s.pending.eraseP (fun e => e.1 == id))).Nodup
      exact (keysOf_eraseP_sublist _ _).nodup ihND
    · show s.disconnected = true ↔
        LinkEv.recvFail ∈ tr ++ [LinkEv.deliver id m]
      rw [List.mem_append, List.mem_singleton]
      constructor
      · intro hd
        exact Or.inl (ihFlag.mp hd)
      · rintro (h | h)
        · exact ihFlag.mpr h
        · exact absurd h (by simp)
    · show s.notifies = if s.disconnected then 1 else 0
      exact ihNot
  | deliverDrop id m hconn hmiss =>
    refine ⟨?_, ihPC, ihPO, ihOC, ihND, ?_, ihNot⟩
    · intro c0 m0 h
      obtain ⟨id0, hcom, htr⟩ := ihA c0 m0 h
      exact ⟨id0, hcom, List.mem_append_left _ htr⟩
    · rw [List.mem_append, List.mem_singleton]
      constructor
      · intro hd
        exact Or.inl (ihFlag.mp hd)
      · rintro (h | h)
        · exact ihFlag.mpr h
        · exact absurd h (by simp)
  | recvFail hconn =>
    refine ⟨?_, ?_, ?_, ?_, ?_, ?_, ?_⟩
    · show ∀ c0 m0, findVal (drainOutcomes s.outcomes s.pending) c0
          = some (LinkOutcome.received m0) →
        ∃ id0, findVal s.commed c0 = some id0 ∧
          LinkEv.deliver id0 m0 ∈ tr ++ [LinkEv.recvFail]
      intro c0 m0 h
      rcases drain_cases h with h2 | h2
      · exact absurd h2 (by simp)
      · obtain ⟨id0, hcom, htr⟩ := ihA c0 m0 h2
        exact ⟨id0, hcom, List.mem_append_left _ htr⟩
    · intro id0 c0 hmem
      exact absurd hmem (List.not_mem_nil _)
    · intro id0 c0 hmem
      exact absurd hmem (List.not_mem_nil _)
    · show ∀ c0 o, findVal (drainOutcomes s.outcomes s.pending) c0 = some o →
        c0 ∈ keysOf s.commed
      intro c0 o h
      rcases drain_keys h with h2 | h2
      · exact ihOC c0 o h2
      · obtain ⟨e2, he2, hsnd⟩ := List.mem_map.mp h2
        have hfv := ihPC e2.1 e2.2 (by rw [Prod.mk.eta]; exact he2)
        rw [hsnd] at hfv
        exact findVal_mem_keys hfv
    · show (keysOf ([] : List (Nat × Nat))).Nodup
      simp [keysOf]
    · show (true : Bool) = true ↔ LinkEv.recvFail ∈ tr ++ [LinkEv.recvFail]
      simp
    · show s.notifies + 1 = if (true : Bool) then 1 else 0
      rw [ihNot, hconn]
      simp

/-- The invariant holds in every reachable state, for any guard. -/
theorem linkInv_reach {g : LinkState → Prop} {s : LinkState} {tr : List LinkEv}
    (h : LinkReach g s tr) : linkInv s tr := by
  induction h with
  | init =>
    refine ⟨?_, ?_, ?_, ?_, ?_, ?_, ?_⟩
    · intro c m h
      exact absurd h (by simp [initLink, findVal])
    · intro id c h
      exact absurd h (List.not_mem_nil _)
    · intro id c h
      exact absurd h (List.not_mem_nil _)
    · intro c o h
      exact absurd h (by simp [initLink, findVal])
    · simp [initLink, keysOf]
    · simp [initLink]
    · simp [initLink]
  | stepComm h hstep hg ih => exact linkInv_step hstep ih
  | stepOther h hstep hnc ih => exact linkInv_step hstep ih

/-- Claim C1: on every storage-node link, in every reachable state (under
any guard on communicate calls), a caller that observed a response
observed one the peer sent under that caller's own MessageID — so a
response is never delivered to a caller whose request had a different
MessageID — and every caller that observed no response observed
ClientDisconnected, by the outcome type; the disconnected flag is set
exactly on the traces where the receive task hit a decode error, the
disconnect notification fired exactly once iff disconnected, and a decode
error makes every still-pending caller observe ClientDisconnected while
firing the disconnect notification. -/
theorem c1_communicate_correlation (g : LinkState → Prop) (s : LinkState)
    (tr : List LinkEv) (h : LinkReach g s tr) :
    (∀ c m, findVal s.outcomes c = some (LinkOutcome.received m) →
      ∃ id, findVal s.commed c = some id ∧ LinkEv.deliver id m ∈ tr) ∧
    (s.disconnected = true ↔ LinkEv.recvFail ∈ tr) ∧
    (s.notifies = if s.disconnected then 1 else 0) ∧
    (∀ s₂, LinkStep s LinkEv.recvFail s₂ →
      s₂.disconnected = true ∧ s₂.notifies = s.notifies + 1 ∧
      ∀ id c, (id, c) ∈ s.pending →
        findVal s₂.outcomes c = some LinkOutcome.clientDisconnected) := by
  obtain ⟨ihA, ihPC, ihPO, ihOC, ihND, ihFlag, ihNot⟩ := linkInv_reach h
  refine ⟨ihA, ihFlag, ihNot, ?_⟩
  intro s₂ hstep
  cases hstep with
  | recvFail hconn =>
    refine ⟨rfl, rfl, ?_⟩
    intro id c hmem
    exact drain_sets hmem (ihPO id c hmem)

/-- State for the C1 witness after caller 0 allocates id 0. -/
def c1s1 : LinkState := ⟨1, [(0, 0)], [(0, 0)], [], false, 0⟩

/-- State for the C1 witness after the response Ack to id 0 arrives. -/
def c1s2 : LinkState :=
  ⟨1, [], [(0, 0)], [(0, LinkOutcome.received Message.ack)], false, 0⟩

/-- Trace for the C1 witness. -/
def c1trace : List LinkEv := [LinkEv.comm 0 0 true, LinkEv.deliver 0 Message.ack]

/-- Claim C1, witness: in the concrete trace where caller 0 communicates
and the peer replies Ack under id 0, the received outcome is correlated
with a deliver event under the caller's own id. -/
theorem c1_witness :
    ∃ id, findVal c1s2.commed 0 = some id ∧
      LinkEv.deliver id Message.ack ∈ c1trace := by
  have hstep1 : LinkStep initLink (LinkEv.comm 0 0 true) c1s1 :=
    commStep initLink 0 1 true c1s1 (by simp [initLink, keysOf])
      (by decide) rfl
  have hstep2 : LinkStep c1s1 (LinkEv.deliver 0 Message.ack) c1s2 :=
    deliverStep c1s1 0 0 Message.ack c1s2 rfl (by decide) rfl
  have h0 : LinkReach (fun _ => True) initLink [] := LinkReach.init
  have h1 : LinkReach (fun _ => True) c1s1 [LinkEv.comm 0 0 true] := by
    have hr := LinkReach.stepComm h0 hstep1 trivial
    simpa using hr
  have h2 : LinkReach (fun _ => True) c1s2 c1trace := by
    have hr := LinkReach.stepOther h1 hstep2 (by intro c id ok; simp)
    exact hr
  obtain ⟨hA, -, -, -⟩ := c1_communicate_correlation _ c1s2 c1trace h2
  exact hA 0 Message.ack rfl

/-- Characterization of a successful skipLoop search: the result is not
pending, is below 2^32, and is reached after j wrapping increments, all of
whose intermediate stops were pending. -/
theorem skipLoop_some {ids : List Nat} :
    ∀ fuel x n2, skipLoop ids x fuel = some n2 →
      n2 ∉ ids ∧ n2 < 4294967296 ∧
      ∃ j, 1 ≤ j ∧ j ≤ fuel ∧ n2 = (x + j) % 4294967296 ∧
        ∀ i, 1 ≤ i → i < j → (x + i) % 4294967296 ∈ ids := by
  intro fuel
  induction fuel with
  | zero =>
    intro x n2 h
    rw [skipLoop] at h
    exact absurd h (by simp)
  | succ f ih =>
    intro x n2 h
    rw [skipLoop] at h
    by_cases hy : (x + 1) % 4294967296 ∈ ids
    · rw [if_pos hy] at h
      obtain ⟨hn, hlt, j, hj1, hjf, hje, hint⟩ := ih _ _ h
      rw [Nat.mod_add_mod] at hje
      refine ⟨hn, hlt, j + 1, by omega, by omega, by omega, ?_⟩
      intro i hi1 hij
      by_cases hi : i = 1
      · rw [hi]
        exact hy
      · have hi2 := hint (i - 1) (by omega) (by omega)
        rw [Nat.mod_add_mod] at hi2
        have hx : x + 1 + (i - 1) = x + i := by omega
        rw [hx] at hi2
        exact hi2
    · rw [if_neg hy] at h
      have h2 : (x + 1) % 4294967296 = n2 := Option.some.inj h
      refine ⟨h2 ▸ hy, h2 ▸ Nat.mod_lt _ (by norm_num), 1, le_refl 1, by omega,
        by omega, ?_⟩
      intro i h1 hlt
      omega

/-- On a pending table with at most 2^32 − 2 distinct ids, the skip search
never returns to its starting point. -/
theorem skipLoop_ne_self {ids : List Nat} {x n2 : Nat}
    (hx : x < 4294967296) (hnd : ids.Nodup)
    (hlen : ids.length + 2 ≤ 4294967296)
    (h : skipLoop ids x 4294967296 = some n2) : n2 ≠ x := by
  intro heq
  obtain ⟨hn, hlt, j, hj1, hjf, hje, hint⟩ := skipLoop_some _ _ _ h
  rw [heq] at hje
  have hjM : j = 4294967296 := by omega
  have hsub : ∀ i : Fin 4294967295, (x + (i.1 + 1)) % 4294967296 ∈ ids := by
    intro i
    exact hint (i.1 + 1) (by omega) (by have := i.isLt; omega)
  have hinj : Set.InjOn
      (fun i : Fin 4294967295 => (x + (i.1 + 1)) % 4294967296)
      (Finset.univ : Finset (Fin 4294967295)) := by
    intro a ha b hb hab
    have ha2 := a.isLt
    have hb2 := b.isLt
    have hv : a.1 = b.1 := by
      simp only [] at hab
      omega
    exact Fin.ext hv
  have hcard := Finset.card_le_card_of_injOn
    (fun i : Fin 4294967295 => (x + (i.1 + 1)) % 4294967296)
    (fun a _ => List.mem_toFinset.mpr (hsub a)) hinj
  rw [Finset.card_univ, Fintype.card_fin, List.toFinset_card_of_nodup hnd]
    at hcard
  omega

/-- Guard under which the amended claim C4 holds: at most 2^32 − 2
requests are pending whenever a communicate call starts. -/
def boundedGuard (s : LinkState) : Prop := s.pending.length + 2 ≤ 4294967296

/-- Preservation of the bounded-guard freshness invariant by one step. -/
theorem c4Inv_step {s s₂ : LinkState} {e : LinkEv}
    (hstep : LinkStep s e s₂)
    (hg : ∀ c id ok, e = LinkEv.comm c id ok → boundedGuard s)
    (ih : (s.next ∉ keysOf s.pending ∧ s.next < 4294967296) ∧
      (keysOf s.pending).Nodup) :
    (s₂.next ∉ keysOf s₂.pending ∧ s₂.next < 4294967296) ∧
    (keysOf s₂.pending).Nodup := by
  obtain ⟨⟨ihfree, ihlt⟩, ihnd⟩ := ih
  cases hstep with
  | comm c n2 ok hfresh hskip =>
    obtain ⟨hn2, hlt2, -⟩ := skipLoop_some _ _ _ hskip
    have hlen : (keysOf s.pending).length + 2 ≤ 4294967296 := by
      rw [keysOf, List.length_map]
      exact hg c s.next ok rfl
    have hne : n2 ≠ s.next := skipLoop_ne_self ihlt ihnd hlen hskip
    constructor
    · refine ⟨?_, hlt2⟩
      show n2 ∉ keysOf
        ((s.next, c) :: s.pending.eraseP (fun e => e.1 == s.next))
      rw [keysOf, List.map_cons]
      intro hmem
      rcases List.mem_cons.mp hmem with h2 | h2
      · exact hne h2
      · exact hn2 ((keysOf_eraseP_sublist _ _).subset h2)
    · show (keysOf
        ((s.next, c) :: s.pending.eraseP (fun e => e.1 == s.next))).Nodup
      rw [keysOf, List.map_cons, List.nodup_cons]
      exact ⟨not_mem_keysOf_eraseP ihnd,
        (keysOf_eraseP_sublist _ _).nodup ihnd⟩
  | deliver id c m hconn hfind =>
    refine ⟨⟨?_, ihlt⟩, (keysOf_eraseP_sublist _ _).nodup ihnd⟩
    show s.next ∉ keysOf (s.pending.eraseP (fun e => e.1 == id))
    intro hmem
    exact ihfree ((keysOf_eraseP_sublist _ _).subset hmem)
  | deliverDrop id m hconn hmiss => exact ⟨⟨ihfree, ihlt⟩, ihnd⟩
  | recvFail hconn =>
    exact ⟨⟨by simp [keysOf], ihlt⟩, by simp [keysOf]⟩

/-- Under the bounded guard, next_message_id stays outside the pending
table, in u32 range, and the pending ids stay unique. -/
theorem c4Inv_reach {s : LinkState} {tr : List LinkEv}
    (h : LinkReach boundedGuard s tr) :
    (s.next ∉ keysOf s.pending ∧ s.next < 4294967296) ∧
    (keysOf s.pending).Nodup := by
  induction h with
  | init =>
    refine ⟨⟨by simp [initLink, keysOf], by simp [initLink]⟩, ?_⟩
    simp [initLink, keysOf]
  | stepComm h hstep hg ih =>
    exact c4Inv_step hstep (fun _ _ _ _ => hg) ih
  | stepOther h hstep hnc ih =>
    exact c4Inv_step hstep (fun c id ok he => absurd he (hnc c id ok)) ih

/-- Claim C4 (amended): in every state reachable while communicate starts
only with at most 2^32 − 2 requests pending, next_message_id is not a
pending id (and is in u32 range); hence every communicate step from such a
state installs its one-shot under a MessageID that is absent from the
pending table at installation time. Without that bound the claim fails,
see the counterexample. -/
theorem c4_fresh_id_bounded (s : LinkState) (tr : List LinkEv)
    (h : LinkReach boundedGuard s tr) :
    (s.next ∉ keysOf s.pending ∧ s.next < 4294967296) ∧
    (∀ c id ok s₂, LinkStep s (LinkEv.comm c id ok) s₂ →
      id ∉ keysOf s.pending ∧ (id, c) ∈ s₂.pending) := by
  obtain ⟨⟨hfree, hlt⟩, hnd⟩ := c4Inv_reach h
  refine ⟨⟨hfree, hlt⟩, ?_⟩
  intro c id ok s₂ hstep
  cases hstep with
  | comm n2 hfresh hskip =>
    exact ⟨hfree, List.mem_cons_self _ _⟩

/-- State for the C4 witness after caller 0 allocates id 0 under the
bounded guard. -/
def c4s1 : LinkState := ⟨1, [(0, 0)], [(0, 0)], [], false, 0⟩

/-- Claim C4, witness: after a first communicate under the bounded guard,
next_message_id is 1 and is not a pending id. -/
theorem c4_witness :
    c4s1.next ∉ keysOf c4s1.pending ∧ c4s1.next < 4294967296 := by
  have hstep1 : LinkStep initLink (LinkEv.comm 0 0 true) c4s1 :=
    commStep initLink 0 1 true c4s1 (by simp [initLink, keysOf])
      (by decide) rfl
  have h1 : LinkReach boundedGuard c4s1 [LinkEv.comm 0 0 true] := by
    have hginit : boundedGuard initLink := by
      rw [boundedGuard]
      simp [initLink]
    have hr : LinkReach boundedGuard c4s1 ([] ++ [LinkEv.comm 0 0 true]) :=
      LinkReach.stepComm LinkReach.init hstep1 hginit
    simpa using hr
  exact (c4_fresh_id_bounded c4s1 _ h1).1

/-- Evaluation of commOutcomes when no pending entry is displaced and the
write succeeds. -/
theorem commOutcomes_eval (s : LinkState) (c : Nat)
    (hfilt : s.pending.filter (fun e => e.1 == s.next) = []) :
    commOutcomes s c true = s.outcomes := by
  rw [commOutcomes, if_pos rfl, displacedOutcomes, hfilt]
  rfl

/-- Pending and commed table of the C4 counterexample after k communicates
with no replies: entries (k − 1, k − 1), …, (0, 0). -/
def descPairs : Nat → List (Nat × Nat)
  | 0 => []
  | k + 1 => (k, k) :: descPairs k

/-- The same table with the entry for id 0 removed. -/
def descPairsFrom1 : Nat → List (Nat × Nat)
  | 0 => []
  | 1 => []
  | k + 2 => (k + 1, k + 1) :: descPairsFrom1 (k + 1)

/-- Keys of descPairs are exactly the ids below k. -/
theorem mem_keys_descPairs : ∀ k i, i ∈ keysOf (descPairs k) ↔ i < k := by
  intro k
  induction k with
  | zero =>
    intro i
    simp [descPairs, keysOf]
  | succ n ih =>
    intro i
    rw [show descPairs (n + 1) = (n, n) :: descPairs n from rfl]
    rw [show keysOf ((n, n) :: descPairs n)
        = n :: keysOf (descPairs n) from rfl]
    rw [List.mem_cons, ih i]
    omega

/-- Keys of descPairsFrom1 are exactly the ids in [1, k). -/
theorem mem_keys_descPairsFrom1 :
    ∀ k i, i ∈ keysOf (descPairsFrom1 k) ↔ (1 ≤ i ∧ i < k) := by
  intro k
  induction k with
  | zero =>
    intro i
    constructor
    · intro h
      exact absurd h (by simp [descPairsFrom1, keysOf])
    · intro h
      omega
  | succ n ih =>
    intro i
    cases n with
    | zero =>
      constructor
      · intro h
        exact absurd h (by simp [descPairsFrom1, keysOf])
      · intro h
        omega
    | succ m =>
      rw [show descPairsFrom1 (m + 2)
          = (m + 1, m + 1) :: descPairsFrom1 (m + 1) from rfl]
      rw [show keysOf ((m + 1, m + 1) :: descPairsFrom1 (m + 1))
          = (m + 1) :: keysOf (descPairsFrom1 (m + 1)) from rfl]
      rw [List.mem_cons, ih i]
      omega

/-- Lookup of a pending id in descPairs. -/
theorem findVal_descPairs : ∀ k j, j < k → findVal (descPairs k) j = some j := by
  intro k
  induction k with
  | zero =>
    intro j h
    omega
  | succ n ih =>
    intro j hj
    rw [show descPairs (n + 1) = (n, n) :: descPairs n from rfl]
    by_cases hjn : j = n
    · rw [hjn]
      exact findVal_cons_self _ _ _
    · rw [findVal_cons_ne _ _ hjn]
      exact ih j (by omega)

/-- Erasing id 0 from descPairs leaves descPairsFrom1. -/
theorem eraseP_zero_descPairs :
    ∀ k, (descPairs k).eraseP (fun e => e.1 == 0) = descPairsFrom1 k := by
  intro k
  induction k with
  | zero => rfl
  | succ n ih =>
    cases n with
    | zero => rfl
    | succ m =>
      rw [show descPairs (m + 2) = (m + 1, m + 1) :: descPairs (m + 1) from rfl]
      rw [List.eraseP_cons]
      rw [show (((m + 1 : Nat), (m + 1 : Nat)).1 == 0) = false from by simp]
      rw [cond_false, ih]
      rfl

/-- Link state of the C4 counterexample after k communicates with no
replies, for k up to 2^32 − 1. -/
def stateK (k : Nat) : LinkState := ⟨k, descPairs k, descPairs k, [], false, 0⟩

/-- Event trace of k communicates by callers 0, …, k − 1. -/
def commTrace (k : Nat) : List LinkEv :=
  (List.range k).map (fun i => LinkEv.comm i i true)

/-- The first 2^32 − 1 communicates with no replies are reachable in the
unrestricted system, filling the pending table while next_message_id
tracks k. -/
theorem reach_stateK :
    ∀ k, k ≤ 4294967295 → LinkReach (fun _ => True) (stateK k) (commTrace k) := by
  intro k
  induction k with
  | zero =>
    intro hk
    exact LinkReach.init
  | succ n ih =>
    intro hk
    have hr := ih (by omega)
    have hnmem : n ∉ keysOf (descPairs n) := by
      rw [mem_keys_descPairs]
      omega
    have hpend : (descPairs n).eraseP (fun e => e.1 == n) = descPairs n :=
      eraseP_key_of_not_mem hnmem
    have hfilt : (descPairs n).filter (fun e => e.1 == n) = [] :=
      filter_key_of_not_mem hnmem
    have hstep : LinkStep (stateK n) (LinkEv.comm n n true) (stateK (n + 1)) := by
      refine commStep (stateK n) n (n + 1) true (stateK (n + 1)) ?_ ?_ ?_
      · show n ∉ keysOf (descPairs n)
        exact hnmem
      · show skipLoop (keysOf (descPairs n)) n 4294967296 = some (n + 1)
        rw [show (4294967296 : Nat) = 4294967295 + 1 from by norm_num]
        rw [skipLoop]
        rw [show (n + 1) % 4294967296 = n + 1 from Nat.mod_eq_of_lt (by omega)]
        rw [if_neg (by rw [mem_keys_descPairs]; omega)]
      · simp only [stateK]
        rw [commOutcomes_eval _ _ hfilt]
        rw [hpend]
        rfl
    have htr : commTrace (n + 1) = commTrace n ++ [LinkEv.comm n n true] := by
      rw [commTrace, commTrace, List.range_succ, List.map_append]
      rfl
    rw [htr]
    exact LinkReach.stepComm hr hstep trivial

/-- The wrapping search climbs through a fully pending id range and stops
at the first free id m. -/
theorem skipLoop_climb {ids : List Nat} {m : Nat} (hm : m < 4294967296)
    (hids : ∀ i, i ∈ ids ↔ i < m) :
    ∀ fuel j, j < m → m - j ≤ fuel → skipLoop ids j fuel = some m := by
  intro fuel
  induction fuel with
  | zero =>
    intro j hj hf
    omega
  | succ f ih =>
    intro j hj hf
    rw [skipLoop]
    rw [show (j + 1) % 4294967296 = j + 1 from Nat.mod_eq_of_lt (by omega)]
    by_cases hjm : j + 1 = m
    · rw [if_neg (by rw [hids]; omega)]
      rw [hjm]
    · rw [if_pos (by rw [hids]; omega)]
      exact ih (j + 1) (by omega) (by omega)

/-- Link state after 2^32 communicates with no replies: every u32 id is
pending, and next_message_id has wrapped onto the pending id 2^32 − 1. -/
def statePre : LinkState :=
  ⟨4294967295, descPairs 4294967296, descPairs 4294967296, [], false, 0⟩

/-- The fully pending state is reachable in the unrestricted system. -/
theorem reach_statePre :
    LinkReach (fun _ => True) statePre (commTrace 4294967296) := by
  have hr := reach_stateK 4294967295 (by norm_num)
  have hnmem : (4294967295 : Nat) ∉ keysOf (descPairs 4294967295) := by
    rw [mem_keys_descPairs]
    omega
  have hids : ∀ i, i ∈ keysOf (descPairs 4294967295) ↔ i < 4294967295 :=
    mem_keys_descPairs 4294967295
  have hpend : (descPairs 4294967295).eraseP (fun e => e.1 == 4294967295)
      = descPairs 4294967295 := eraseP_key_of_not_mem hnmem
  have hfilt : (descPairs 4294967295).filter (fun e => e.1 == 4294967295)
      = [] := filter_key_of_not_mem hnmem
  have hstep : LinkStep (stateK 4294967295)
      (LinkEv.comm 4294967295 4294967295 true) statePre := by
    refine commStep (stateK 4294967295) 4294967295 4294967295 true statePre
      ?_ ?_ ?_
    · show (4294967295 : Nat) ∉ keysOf (descPairs 4294967295)
      exact hnmem
    · show skipLoop (keysOf (descPairs 4294967295)) 4294967295 4294967296
        = some 4294967295
      rw [show (4294967296 : Nat) = 4294967295 + 1 from by norm_num]
      rw [skipLoop]
      rw [show (4294967295 + 1) % 4294967296 = 0 from by norm_num]
      rw [if_pos (by rw [hids]; omega)]
      exact skipLoop_climb (by norm_num) hids 4294967295 0 (by norm_num)
        (by norm_num)
    · simp only [stateK, statePre]
      rw [commOutcomes]
      simp only []
      first
      | rw [if_pos trivial]
      | rw [if_pos rfl]
      rw [displacedOutcomes, hfilt, hpend]
      rfl
  have htr : commTrace 4294967296
      = commTrace 4294967295 ++ [LinkEv.comm 4294967295 4294967295 true] := by
    rw [show (4294967296 : Nat) = 4294967295 + 1 from by norm_num]
    rw [commTrace, commTrace, List.range_succ, List.map_append]
    rfl
  rw [htr]
  exact LinkReach.stepComm hr hstep trivial

/-- Link state of the C4 counterexample: after the response to id 0 is
delivered, id 2^32 − 1 is still pending and next_message_id equals
2^32 − 1. -/
def c4bad : LinkState :=
  ⟨4294967295, descPairsFrom1 4294967296, descPairs 4294967296,
   [(0, LinkOutcome.received Message.ack)], false, 0⟩

/-- Trace of the C4 counterexample. -/
def c4badTrace : List LinkEv :=
  commTrace 4294967296 ++ [LinkEv.deliver 0 Message.ack]

/-- The C4 counterexample state is reachable in the unrestricted system. -/
theorem reach_c4bad : LinkReach (fun _ => True) c4bad c4badTrace := by
  have hstep : LinkStep statePre (LinkEv.deliver 0 Message.ack) c4bad := by
    refine deliverStep statePre 0 0 Message.ack c4bad rfl ?_ ?_
    · show findVal (descPairs 4294967296) 0 = some 0
      exact findVal_descPairs 4294967296 0 (by norm_num)
    · simp only [statePre, c4bad]
      rw [eraseP_zero_descPairs]
      rfl
  exact LinkReach.stepOther reach_statePre hstep (by intro c id ok; simp)

/-- Claim C4, counterexample: without a bound on simultaneously pending
requests the fresh-install property fails. After 2^32 communicates with no
replies and one delivered reply (to id 0), the reached state has
next_message_id = 2^32 − 1 still pending; the id-search loop of the next
communicate call terminates (next_message_id moves to 0), so that call
installs its one-shot under id 2^32 − 1, which is present in the pending
table at installation time, displacing the previous waiter. -/
theorem c4_counterexample :
    LinkReach (fun _ => True) c4bad c4badTrace ∧
    c4bad.next ∈ keysOf c4bad.pending ∧
    ∃ s₂, LinkStep c4bad (LinkEv.comm 4294967296 c4bad.next true) s₂ ∧
      (c4bad.next, 4294967296) ∈ s₂.pending := by
  have hmem : c4bad.next ∈ keysOf c4bad.pending := by
    show (4294967295 : Nat) ∈ keysOf (descPairsFrom1 4294967296)
    rw [mem_keys_descPairsFrom1]
    omega
  have hfresh : (4294967296 : Nat) ∉ keysOf c4bad.commed := by
    show (4294967296 : Nat) ∉ keysOf (descPairs 4294967296)
    rw [mem_keys_descPairs]
    omega
  have hskip : skipLoop (keysOf c4bad.pending) c4bad.next 4294967296
      = some 0 := by
    show skipLoop (keysOf (descPairsFrom1 4294967296)) 4294967295 4294967296
      = some 0
    rw [show (4294967296 : Nat) = 4294967295 + 1 from by norm_num]
    rw [skipLoop]
    rw [show (4294967295 + 1) % 4294967296 = 0 from by norm_num]
    rw [if_neg (by rw [mem_keys_descPairsFrom1]; omega)]
  refine ⟨reach_c4bad, hmem, ?_⟩
  exact ⟨_, LinkStep.comm c4bad 4294967296 0 true hfresh hskip,
    List.mem_cons_self _ _⟩

end Bnuystore
